import Mathlib

/-!
Verification of the 64-bit two's-complement integer value type of
`src/support/node-mongodb-native/lib/mongodb/bson/timestamp.js` (a Timestamp
class derived from the GWT/Closure `Long` emulation).

Modelling conventions:

* A `Timestamp` stores the *bit patterns* of the two signed 32-bit words
  `low_` and `high_` as natural numbers `< 2^32` (the signed reading is
  recovered by `sgn32`).  The JS constructor's `| 0` normalisation is the
  `toUint32`/`% 2^32` in the constructors `Timestamp.ofBits` /
  `Timestamp.ofPat`.
* JS numbers (IEEE-754 doubles) are modelled as exact values: `JSNum` is
  NaN, an infinity, or an exact rational.  All double arithmetic performed
  by the source on in-range integers (16-bit limb products, `Math.pow` of a
  radix up to `36^8 < 2^53`, `parseInt` of up to 8 digits) is exact in
  IEEE-754 as well, so the model agrees with the source there.  `toNumber`
  of a large value is rounded by real doubles but exact here; it only feeds
  the division's *approximation* step, whose correction loop exists
  precisely to absorb that error, and under the exact model the loop's
  final value is the same.
* JS bitwise ops on 32-bit words act on the stored patterns.  Where the
  source recombines *disjoint* bit ranges with `|` (for example
  `(c16 << 16) | c00` with `c00 < 2^16`), the model writes the equivalent
  `* 2^16 + c00`; each such place is commented.
* The `while` loops inside `div` and `toString`, and the recursion of
  `div`, are modelled with an explicit fuel parameter returning `none` when
  the fuel runs out; termination of the source loop is then the provable
  statement that a fixed fuel never returns `none`.
* `INT_CACHE_` only memoizes instances (object identity); it never changes
  a value, so `fromInt` is modelled as the pure construction.
-/

/-- Signed reading of a 32-bit pattern: the value of the JS signed 32-bit
integer whose unsigned bit pattern is `u`. -/
def sgn32 (u : Nat) : Int :=
  if u < 2147483648 then (u : Int) else (u : Int) - 4294967296

/-- ToUint32: the 32-bit pattern of an integer (the effect of JS `| 0` on an
integral value, viewed as a pattern). -/
def toUint32 (n : Int) : Nat := (n % 4294967296).toNat

/-- A JS number: NaN, an infinity, or a finite value (modelled as an exact
rational; every finite double is a rational). -/
inductive JSNum where
  | nan : JSNum
  | inf : Bool → JSNum
  | finite : ℚ → JSNum

/-- Truncation toward zero of a rational, as JS `| 0` and `Math.floor` on
non-negative values perform it. -/
def ratTrunc (q : ℚ) : Int := if q < 0 then -⌊-q⌋ else ⌊q⌋

/-- The 32-bit pattern produced by JS `ToInt32`/`ToUint32` applied to a finite
double: truncate toward zero, then take the pattern mod `2^32`. -/
def jsPat32 (q : ℚ) : Nat := toUint32 (ratTrunc q)

/-- JS `%` on finite doubles (fmod): `a - b * trunc (a / b)`.  It is exact in
IEEE-754 and exact here. -/
def jsFmod (a b : ℚ) : ℚ := a - b * (ratTrunc (a / b) : ℚ)

/-- The value type: the two stored 32-bit patterns `lowU` (of `low_`) and
`highU` (of `high_`), each `< 2^32` as the constructor's `| 0` guarantees. -/
structure Timestamp where
  lowU : Nat
  highU : Nat
  lowU_lt : lowU < 4294967296
  highU_lt : highU < 4294967296

instance : DecidableEq Timestamp := fun a b =>
  if h : a.lowU = b.lowU ∧ a.highU = b.highU then
    .isTrue (by cases a; cases b; simp_all)
  else
    .isFalse (fun e => h (by cases e; exact ⟨rfl, rfl⟩))

namespace Timestamp

/-- The constructor `new Timestamp(low, high)`: force both words into 32
signed bits (`| 0`); we store the resulting patterns.  `fromBits` is the
same construction. -/
def ofBits (low high : Int) : Timestamp :=
  ⟨toUint32 low, toUint32 high, by unfold toUint32; omega, by unfold toUint32; omega⟩

/-- Construction directly from 32-bit patterns (the same as `ofBits` when the
arguments are already patterns `< 2^32`). -/
def ofPat (low high : Nat) : Timestamp :=
  ⟨low % 4294967296, high % 4294967296, by omega, by omega⟩

/-- The unsigned 64-bit pattern a Timestamp stores. -/
def toN (t : Timestamp) : Nat := t.highU * 4294967296 + t.lowU

/-- toInt: the low word as a signed value. -/
def toInt (t : Timestamp) : Int := sgn32 t.lowU

/-- getLowBits. -/
def getLowBits (t : Timestamp) : Int := sgn32 t.lowU

/-- getHighBits. -/
def getHighBits (t : Timestamp) : Int := sgn32 t.highU

/-- getLowBitsUnsigned: `low_ >= 0 ? low_ : 2^32 + low_`, which is exactly
the stored pattern. -/
def getLowBitsUnsigned (t : Timestamp) : Int := (t.lowU : Int)

/-- toNumber: `high_ * 2^32 + getLowBitsUnsigned()`.  This is the represented
signed 64-bit value (exact in the model; a real double would round values
beyond 2^53). -/
def toNumber (t : Timestamp) : Int := sgn32 t.highU * 4294967296 + t.lowU

/-- isZero: `high_ == 0 && low_ == 0` (a signed word is zero iff its pattern
is zero). -/
def isZero (t : Timestamp) : Bool := t.highU == 0 && t.lowU == 0

/-- isNegative: `high_ < 0`, i.e. the high pattern has its top bit set. -/
def isNegative (t : Timestamp) : Bool := 2147483648 ≤ t.highU

/-- isOdd: `(low_ & 1) == 1`. -/
def isOdd (t : Timestamp) : Bool := t.lowU % 2 == 1

/-- equals: `high_ == other.high_ && low_ == other.low_` (equal signed words
iff equal patterns). -/
def equals (a b : Timestamp) : Bool := a.highU == b.highU && a.lowU == b.lowU

/-- notEquals. -/
def notEquals (a b : Timestamp) : Bool := a.highU != b.highU || a.lowU != b.lowU

/-- fromInt: `new Timestamp(value | 0, value < 0 ? -1 : 0)`.  The
`INT_CACHE_` lookup only affects object identity, never the value. -/
def fromInt (value : Int) : Timestamp := ofBits value (if value < 0 then -1 else 0)

/-- The constant ZERO. -/
def ZERO : Timestamp := fromInt 0

/-- The constant ONE. -/
def ONE : Timestamp := fromInt 1

/-- The constant NEG_ONE. -/
def NEG_ONE : Timestamp := fromInt (-1)

/-- MAX_VALUE: `fromBits(0xFFFFFFFF | 0, 0x7FFFFFFF | 0)`. -/
def MAX_VALUE : Timestamp := ofBits 4294967295 2147483647

/-- MIN_VALUE: `fromBits(0, 0x80000000 | 0)` (the pattern `0x80000000`). -/
def MIN_VALUE : Timestamp := ofBits 0 2147483648

/-- TWO_PWR_24_: `fromInt(1 << 24)`. -/
def TWO_PWR_24_ : Timestamp := fromInt 16777216

/-- not: `fromBits(~low_, ~high_)`; on patterns, JS `~` of a signed 32-bit
word is `2^32 - 1 - pattern`. -/
def not (t : Timestamp) : Timestamp :=
  ofPat (4294967295 - t.lowU) (4294967295 - t.highU)

/-- and: word-wise `&` acts on the patterns. -/
def and (a b : Timestamp) : Timestamp :=
  ofPat (a.lowU &&& b.lowU) (a.highU &&& b.highU)

/-- or: word-wise `|` acts on the patterns. -/
def or (a b : Timestamp) : Timestamp :=
  ofPat (a.lowU ||| b.lowU) (a.highU ||| b.highU)

/-- xor: word-wise `^` acts on the patterns. -/
def xor (a b : Timestamp) : Timestamp :=
  ofPat (a.lowU ^^^ b.lowU) (a.highU ^^^ b.highU)

/-- add: split both operands into four 16-bit limbs, sum with carries, drop
the carry out of the top limb.  `(c16 << 16) | c00` recombines disjoint bit
ranges (`c00, c16 < 2^16`), written here as `c16 * 65536 + c00`; likewise for
the high word. -/
def add (a b : Timestamp) : Timestamp :=
  let a48 := a.highU / 65536
  let a32 := a.highU % 65536
  let a16 := a.lowU / 65536
  let a00 := a.lowU % 65536
  let b48 := b.highU / 65536
  let b32 := b.highU % 65536
  let b16 := b.lowU / 65536
  let b00 := b.lowU % 65536
  let c00 := a00 + b00
  let c16 := c00 / 65536
  let c00 := c00 % 65536
  let c16 := c16 + (a16 + b16)
  let c32 := c16 / 65536
  let c16 := c16 % 65536
  let c32 := c32 + (a32 + b32)
  let c48 := c32 / 65536
  let c32 := c32 % 65536
  let c48 := c48 + (a48 + b48)
  let c48 := c48 % 65536
  ofPat (c16 * 65536 + c00) (c48 * 65536 + c32)

/-- negate: MIN_VALUE negates to itself; otherwise `not().add(ONE)`. -/
def negate (t : Timestamp) : Timestamp :=
  if t.equals MIN_VALUE then MIN_VALUE else (t.not).add ONE

/-- subtract: `add(other.negate())`. -/
def subtract (a b : Timestamp) : Timestamp := a.add b.negate

/-- compare: 0 on equals; a negative operand is smaller than a non-negative
one; with equal signs the sign of the (non-overflowing) difference decides. -/
def compare (a b : Timestamp) : Int :=
  if a.equals b then 0
  else
    let thisNeg := a.isNegative
    let otherNeg := b.isNegative
    if thisNeg && !otherNeg then -1
    else if !thisNeg && otherNeg then 1
    else if (a.subtract b).isNegative then -1 else 1

/-- lessThan: `compare(other) < 0`. -/
def lessThan (a b : Timestamp) : Bool := a.compare b < 0

/-- lessThanOrEqual: `compare(other) <= 0`. -/
def lessThanOrEqual (a b : Timestamp) : Bool := a.compare b ≤ 0

/-- greaterThan: `compare(other) > 0`. -/
def greaterThan (a b : Timestamp) : Bool := a.compare b > 0

/-- greaterThanOrEqual: `compare(other) >= 0`. -/
def greaterThanOrEqual (a b : Timestamp) : Bool := a.compare b ≥ 0

/-- shiftLeft: `numBits &= 63`; for `0 < n < 32` the new high word is
`(high << n) | (low >>> (32 - n))` — disjoint bit ranges, recombined here by
addition (the shifted high pattern has its low `n` bits zero and
`low >>> (32-n) < 2^n`). -/
def shiftLeft (t : Timestamp) (numBits : Nat) : Timestamp :=
  let n := numBits % 64
  if n = 0 then t
  else if n < 32 then
    ofPat (t.lowU * 2 ^ n) ((t.highU * 2 ^ n) % 4294967296 + t.lowU / 2 ^ (32 - n))
  else ofPat 0 (t.lowU * 2 ^ (n - 32))

/-- shiftRight (sign-propagating): `numBits &= 63`; for `0 < n < 32` the new
low word is `(low >>> n) | (high << (32 - n))` — disjoint bit ranges,
recombined by addition; the new high word is the arithmetic shift
`high >> n`, i.e. the floor division of the signed word. -/
def shiftRight (t : Timestamp) (numBits : Nat) : Timestamp :=
  let n := numBits % 64
  if n = 0 then t
  else if n < 32 then
    ofPat (t.lowU / 2 ^ n + (t.highU * 2 ^ (32 - n)) % 4294967296)
      (toUint32 (Int.fdiv (sgn32 t.highU) (2 ^ n)))
  else
    ofBits (Int.fdiv (sgn32 t.highU) (2 ^ (n - 32)))
      (if 0 ≤ sgn32 t.highU then 0 else -1)

/-- shiftRightUnsigned (zero-filling): `numBits &= 63`; for `0 < n < 32` the
new low word is `(low >>> n) | (high << (32 - n))` (disjoint, recombined by
addition) and the new high word is `high >>> n`. -/
def shiftRightUnsigned (t : Timestamp) (numBits : Nat) : Timestamp :=
  let n := numBits % 64
  if n = 0 then t
  else if n < 32 then
    ofPat (t.lowU / 2 ^ n + (t.highU * 2 ^ (32 - n)) % 4294967296) (t.highU / 2 ^ n)
  else if n = 32 then ofPat t.highU 0
  else ofPat (t.highU / 2 ^ (n - 32)) 0

/-- The body of `fromNumber` on a non-negative finite argument: the clamp to
MAX_VALUE, then `new Timestamp((value % 2^32) | 0, (value / 2^32) | 0)`.
The recursive call `fromNumber(-value)` of the negative branch always lands
here (its argument is positive, so the NaN, MIN_VALUE and negative branches
are not taken), so the source's self-recursion is this helper. -/
def fromNumberPos (value : ℚ) : Timestamp :=
  if 9223372036854775808 ≤ value + 1 then MAX_VALUE
  else ofPat (jsPat32 (jsFmod value 4294967296)) (jsPat32 (value / 4294967296))

/-- fromNumber: ZERO for NaN and infinities, clamps at ±2^63, negative values
via negation of the positive case, non-negative values split into words. -/
def fromNumber : JSNum → Timestamp
  | .nan => ZERO
  | .inf _ => ZERO
  | .finite value =>
    if value ≤ -9223372036854775808 then MIN_VALUE
    else if 9223372036854775808 ≤ value + 1 then MAX_VALUE
    else if value < 0 then (fromNumberPos (-value)).negate
    else fromNumberPos value

/-- The tail of `multiply` once both operands have been made non-negative:
the small-operand float path, else the 16-bit limb product.  The sign
branches of `multiply` recurse with negated (hence non-negative, non-zero,
non-MIN_VALUE) operands, for which the zero, MIN_VALUE and sign tests of the
re-entered `multiply` are all false, so the source's self-recursion lands
exactly here.  In the limb chain every `|` recombination joins disjoint bit
ranges and is written as addition, as in `add`. -/
def multiplyPos (a b : Timestamp) : Timestamp :=
  if a.lessThan TWO_PWR_24_ && b.lessThan TWO_PWR_24_ then
    fromNumber (.finite ((a.toNumber * b.toNumber : Int) : ℚ))
  else
    let a48 := a.highU / 65536
    let a32 := a.highU % 65536
    let a16 := a.lowU / 65536
    let a00 := a.lowU % 65536
    let b48 := b.highU / 65536
    let b32 := b.highU % 65536
    let b16 := b.lowU / 65536
    let b00 := b.lowU % 65536
    let c00 := a00 * b00
    let c16 := c00 / 65536
    let c00 := c00 % 65536
    let c16 := c16 + a16 * b00
    let c32 := c16 / 65536
    let c16 := c16 % 65536
    let c16 := c16 + a00 * b16
    let c32 := c32 + c16 / 65536
    let c16 := c16 % 65536
    let c32 := c32 + a32 * b00
    let c48 := c32 / 65536
    let c32 := c32 % 65536
    let c32 := c32 + a16 * b16
    let c48 := c48 + c32 / 65536
    let c32 := c32 % 65536
    let c32 := c32 + a00 * b32
    let c48 := c48 + c32 / 65536
    let c32 := c32 % 65536
    let c48 := c48 + (a48 * b00 + a32 * b16 + a16 * b32 + a00 * b48)
    let c48 := c48 % 65536
    ofPat (c16 * 65536 + c00) (c48 * 65536 + c32)

/-- multiply: zero if either operand is zero; MIN_VALUE times an odd value is
MIN_VALUE and times an even value is ZERO; otherwise normalise the signs
(result sign is the XOR of the operand signs) and take the non-negative
product `multiplyPos`. -/
def multiply (a b : Timestamp) : Timestamp :=
  if a.isZero then ZERO
  else if b.isZero then ZERO
  else if a.equals MIN_VALUE then (if b.isOdd then MIN_VALUE else ZERO)
  else if b.equals MIN_VALUE then (if a.isOdd then MIN_VALUE else ZERO)
  else if a.isNegative then
    if b.isNegative then multiplyPos a.negate b.negate
    else (multiplyPos a.negate b).negate
  else if b.isNegative then (multiplyPos a b.negate).negate
  else multiplyPos a b

/-- The error taxonomy of the source: `throw Error(...)` sites. -/
inductive JsError where
  | divisionByZero : JsError
  | formatEmptyString : JsError
  | radixOutOfRange : JsError
  | interiorMinusSign : JsError
deriving DecidableEq

/-- The inner correction loop of `div`: decrease `approx` by `delta` until
the approximate product is non-negative and does not exceed the remainder.
Fueled: `none` means the fuel ran out (under the exact-number model the loop
in fact exits immediately; see the division lemmas). -/
def divCorrect (other rem : Timestamp) (delta : Int) :
    Nat → Int → Timestamp × Timestamp → Option (Timestamp × Timestamp)
  | 0, _, _ => none
  | fuel + 1, approx, (approxRes, approxRem) =>
    if approxRem.isNegative || approxRem.greaterThan rem then
      let approx := approx - delta
      let approxRes := fromNumber (.finite (approx : ℚ))
      let approxRem := approxRes.multiply other
      divCorrect other rem delta fuel approx (approxRes, approxRem)
    else some (approxRes, approxRem)

/-- One pass of `div`'s outer loop: approximate `rem / other` from the float
quotient (`Math.floor` of the exact quotient in this model, forced to at
least 1), derive the correction step `delta` from the approximation's bit
length (`Math.ceil(Math.log approx / Math.LN2)` is `Nat.clog 2 approx` for
the integral `approx`), and run the downward correction loop. -/
def divIter (other rem : Timestamp) (fuel : Nat) : Option (Timestamp × Timestamp) :=
  let approx : Int := max 1 (Int.fdiv rem.toNumber other.toNumber)
  let log2 : Nat := Nat.clog 2 approx.toNat
  let delta : Int := if log2 ≤ 48 then 1 else 2 ^ (log2 - 48)
  let approxRes := fromNumber (.finite (approx : ℚ))
  let approxRem := approxRes.multiply other
  divCorrect other rem delta fuel approx (approxRes, approxRem)

/-- The outer loop of `div` for non-negative `rem` and positive `other`:
while `rem >= other`, run one approximation-and-correction pass (`divIter`),
force a zero quotient up to ONE, accumulate the quotient and reduce the
remainder.  Fueled. -/
def divLoop (other : Timestamp) : Nat → Timestamp → Timestamp → Option Timestamp
  | 0, _, _ => none
  | fuel + 1, res, rem =>
    if rem.greaterThanOrEqual other then
      match divIter other rem (fuel + 1) with
      | none => none
      | some p =>
        let approxRes := if p.1.isZero then ONE else p.1
        let approxRem := p.2
        divLoop other fuel (res.add approxRes) (rem.subtract approxRem)
    else some res

/-- div, fueled: `none` when the fuel runs out, otherwise the thrown error or
the quotient.  Division by zero throws; a zero dividend gives ZERO; a
MIN_VALUE dividend is handled by halving (`shiftRight 1`), recursive
division, doubling, and a recursive correction of the remainder; a MIN_VALUE
divisor gives ZERO for every other dividend; signs are normalised; the
non-negative case runs `divLoop`. -/
def divF : Nat → Timestamp → Timestamp → Option (Except JsError Timestamp)
  | 0, _, _ => none
  | fuel + 1, a, other =>
    if other.isZero then some (.error .divisionByZero)
    else if a.isZero then some (.ok ZERO)
    else if a.equals MIN_VALUE then
      if other.equals ONE || other.equals NEG_ONE then some (.ok MIN_VALUE)
      else if other.equals MIN_VALUE then some (.ok ONE)
      else
        let halfThis := a.shiftRight 1
        match divF fuel halfThis other with
        | none => none
        | some (.error e) => some (.error e)
        | some (.ok q) =>
          let approx := q.shiftLeft 1
          if approx.equals ZERO then
            some (.ok (if other.isNegative then ONE else NEG_ONE))
          else
            let rem := a.subtract (other.multiply approx)
            match divF fuel rem other with
            | none => none
            | some (.error e) => some (.error e)
            | some (.ok r) => some (.ok (approx.add r))
    else if other.equals MIN_VALUE then some (.ok ZERO)
    else if a.isNegative then
      if other.isNegative then divF fuel a.negate other.negate
      else
        match divF fuel a.negate other with
        | none => none
        | some (.error e) => some (.error e)
        | some (.ok q) => some (.ok q.negate)
    else if other.isNegative then
      match divF fuel a other.negate with
      | none => none
      | some (.error e) => some (.error e)
      | some (.ok q) => some (.ok q.negate)
    else
      match divLoop other (fuel + 1) ZERO a with
      | none => none
      | some r => some (.ok r)

/-- modulo: `subtract(div(other).multiply(other))`, with the division's fuel
made explicit and its error propagated. -/
def moduloF (fuel : Nat) (a other : Timestamp) : Option (Except JsError Timestamp) :=
  match divF fuel a other with
  | none => none
  | some (.error e) => some (.error e)
  | some (.ok d) => some (.ok (a.subtract (d.multiply other)))

end Timestamp

/-- The digit characters JS `Number.prototype.toString(radix)` emits
(lowercase) and `parseInt` accepts. -/
def DIGITS : List Char := "0123456789abcdefghijklmnopqrstuvwxyz".toList

/-- The uppercase digit characters, accepted by `parseInt` as well. -/
def DIGITSUP : List Char := "0123456789ABCDEFGHIJKLMNOPQRSTUVWXYZ".toList

/-- The character for one digit value (lowercase, as JS emits). -/
def digitChar (d : Nat) : Char := DIGITS.getD d '0'

/-- The digit value of one character, or `none` when it is no digit. -/
def charDigit (c : Char) : Option Nat :=
  match DIGITS.indexOf? c with
  | some i => some i
  | none => DIGITSUP.indexOf? c

/-- The little-endian base-`r` digits of `n`, with fuel (any fuel with
`n < r ^ fuel` is enough). -/
def natDigitsF : Nat → Nat → Nat → List Nat
  | 0, _, _ => []
  | fuel + 1, r, n => if n = 0 then [] else n % r :: natDigitsF fuel r (n / r)

/-- The canonical base-`r` digit string of `n`, `"0"` for zero: what JS
`Number.prototype.toString(radix)` produces for a non-negative integer. -/
def natToChars (r : Nat) (n : Nat) : List Char :=
  if n = 0 then ['0'] else ((natDigitsF 64 r n).reverse).map digitChar

/-- JS `Number.prototype.toString(radix)` on an integral value: a leading
`-` and the canonical digits of the absolute value. -/
def jsIntToString (n : Int) (r : Nat) : List Char :=
  if n < 0 then '-' :: natToChars r (-n).toNat else natToChars r n.toNat

/-- Accumulating parse of leading digits, stopping at the first character
that is no digit below the radix. -/
def parseIntDigits (r : Nat) : Nat → List Char → Nat
  | acc, [] => acc
  | acc, c :: cs =>
    match charDigit c with
    | some d => if d < r then parseIntDigits r (acc * r + d) cs else acc
    | none => acc

/-- The unsigned part of `parseInt`: NaN when the first character is no
digit, else the value of the longest digit prefix. -/
def parseIntAbs (s : List Char) (r : Nat) : JSNum :=
  match s with
  | [] => .nan
  | c :: cs =>
    match charDigit c with
    | some d => if d < r then .finite ((parseIntDigits r d cs : Nat) : ℚ) else .nan
    | none => .nan

/-- Model of the JS builtin `parseInt(string, radix)` for the inputs this
source feeds it: an optional sign, then the longest digit prefix (NaN when
there is none).  Leading whitespace and the `0x` prefix are not modelled;
the chunks `fromString` passes never contain them. -/
def parseInt (s : List Char) (r : Nat) : JSNum :=
  match s with
  | '-' :: rest =>
    match parseIntAbs rest r with
    | .finite v => .finite (-v)
    | _ => .nan
  | '+' :: rest => parseIntAbs rest r
  | _ => parseIntAbs s r

namespace Timestamp

/-- The chunk loop of `fromString`: eight digits at a time through
`result = result * radix^8 + chunk`, the final shorter chunk through
`radix^length`.  A full final chunk takes the `radix^8` path and the loop
then ends, exactly as the source's `for` loop does. -/
def fromStringLoop (radix : Int) (radixToPower : Timestamp) :
    Timestamp → List Char → Timestamp
  | result, [] => result
  | result, c1 :: c2 :: c3 :: c4 :: c5 :: c6 :: c7 :: c8 :: rest =>
    let value := parseInt [c1, c2, c3, c4, c5, c6, c7, c8] radix.toNat
    fromStringLoop radix radixToPower
      ((result.multiply radixToPower).add (fromNumber value)) rest
  | result, rest =>
    let value := parseInt rest radix.toNat
    let power := fromNumber (.finite ((radix : ℚ) ^ rest.length))
    (result.multiply power).add (fromNumber value)

/-- fromString: an empty string is a format error; the radix defaults to 10
(JS `opt_radix || 10`, so an explicit 0 also means 10) and must lie in
[2,36]; a leading `-` negates the parse of the rest; a remaining `-` is a
format error; otherwise the chunk loop parses the digits. -/
def fromString : List Char → Option Int → Except JsError Timestamp
  | [], _ => .error .formatEmptyString
  | s, optRadix =>
    let radix : Int := match optRadix with
      | none => 10
      | some r => if r = 0 then 10 else r
    if radix < 2 || 36 < radix then .error .radixOutOfRange
    else
      match s with
      | '-' :: rest => (fromString rest (some radix)).map negate
      | _ =>
        if s.contains '-' then .error .interiorMinusSign
        else
          let radixToPower := fromNumber (.finite ((radix : ℚ) ^ (8 : Nat)))
          .ok (fromStringLoop radix radixToPower ZERO s)

/-- The chunk loop of `toString` for a non-negative value: divide by
`radix^6`, stringify the remainder's low word, left-pad every chunk but the
most significant to six digits, and prepend.  Fueled; the division's fuel is
the fixed 16 used throughout. -/
def toStringLoopF (radix : Int) (radixToPower : Timestamp) :
    Nat → Timestamp → List Char → Option (Except JsError (List Char))
  | 0, _, _ => none
  | fuel + 1, rem, result =>
    match divF 16 rem radixToPower with
    | none => none
    | some (.error e) => some (.error e)
    | some (.ok remDiv) =>
      let intval := (rem.subtract (remDiv.multiply radixToPower)).toInt
      let digits := jsIntToString intval radix.toNat
      if remDiv.isZero then some (.ok (digits ++ result))
      else
        toStringLoopF radix radixToPower fuel remDiv
          (List.replicate (6 - digits.length) '0' ++ digits ++ result)

/-- toString: radix defaulting and checking as in `fromString`; `"0"` for
zero; MIN_VALUE by splitting off the bottom digit (`div` by the radix, one
remainder digit); other negatives by `-` and negation; non-negative values
by the six-digit chunk loop.  Fueled. -/
def toStringF : Nat → Timestamp → Option Int → Option (Except JsError (List Char))
  | 0, _, _ => none
  | fuel + 1, t, optRadix =>
    let radix : Int := match optRadix with
      | none => 10
      | some r => if r = 0 then 10 else r
    if radix < 2 || 36 < radix then some (.error .radixOutOfRange)
    else if t.isZero then some (.ok ['0'])
    else if t.isNegative then
      if t.equals MIN_VALUE then
        let radixTimestamp := fromNumber (.finite (radix : ℚ))
        match divF 16 t radixTimestamp with
        | none => none
        | some (.error e) => some (.error e)
        | some (.ok d) =>
          let rem := (d.multiply radixTimestamp).subtract t
          match toStringF fuel d (some radix) with
          | none => none
          | some (.error e) => some (.error e)
          | some (.ok s) => some (.ok (s ++ jsIntToString rem.toInt radix.toNat))
      else
        match toStringF fuel t.negate (some radix) with
        | none => none
        | some (.error e) => some (.error e)
        | some (.ok s) => some (.ok ('-' :: s))
    else
      let radixToPower := fromNumber (.finite ((radix : ℚ) ^ (6 : Nat)))
      toStringLoopF radix radixToPower (fuel + 1) t []

/-- The browsing loop of `getNumBitsAbs`: `for (bit = 31; bit > 0; bit--)`
breaking at the first set bit; the call `bitScan val 31` tests bits 31 down
to 1 and ends with 0 when none is set. -/
def bitScan (v : Nat) : Nat → Nat
  | 0 => 0
  | b + 1 => if v.testBit (b + 1) then b + 1 else bitScan v b

/-- The body of `getNumBitsAbs` for a non-negative value: scan the most
significant non-zero word.  The negative branch of `getNumBitsAbs` recurses
on the (then non-negative) negation and lands here, as in `multiplyPos`. -/
def getNumBitsAbsPos (t : Timestamp) : Nat :=
  let val := if t.highU ≠ 0 then t.highU else t.lowU
  let bit := bitScan val 31
  if t.highU ≠ 0 then bit + 33 else bit + 1

/-- getNumBitsAbs: 64 for MIN_VALUE, the negation's count for other negative
values, else a scan of the most significant non-zero word. -/
def getNumBitsAbs (t : Timestamp) : Nat :=
  if t.isNegative then
    if t.equals MIN_VALUE then 64 else getNumBitsAbsPos t.negate
  else getNumBitsAbsPos t

end Timestamp

/-- Reinterpretation of an integer as a signed 64-bit value: the unique
value in `[-2^63, 2^63)` congruent to `z` mod `2^64`. -/
def wrap64 (z : Int) : Int :=
  (z + 9223372036854775808) % 18446744073709551616 - 9223372036854775808

/-- The quotient a 64-bit two's-complement division produces: truncated
division, except that `MIN_VALUE / -1` overflows back to `MIN_VALUE`. -/
def i64div (a b : Int) : Int :=
  if a = -9223372036854775808 ∧ b = -1 then a else Int.tdiv a b

/-- The big-endian value of a digit list. -/
def digitsVal (r : Nat) (l : List Nat) : Nat := l.foldl (fun a d => a * r + d) 0

/-- The radix `fromString` and `toString` actually use: `opt_radix || 10`,
so a missing radix and an explicit `0` both mean 10. -/
def effRadix : Option Int → Int
  | none => 10
  | some r => if r = 0 then 10 else r

/-- The input with every leading `-` removed. -/
def stripMinus : List Char → List Char
  | '-' :: rest => stripMinus rest
  | s => s

/-- Specification-side failure predicate for `fromString` (the amended
wording): the effective radix lies outside `[2, 36]`, or the input with all
leading `-` stripped is empty, or that remainder still contains a `-`. -/
def specFromStringFails (s : List Char) (optRadix : Option Int) : Bool :=
  (effRadix optRadix < 2 || 36 < effRadix optRadix)
  || (stripMinus s).isEmpty || (stripMinus s).contains '-'

namespace Timestamp

theorem ext' {a b : Timestamp} (h1 : a.lowU = b.lowU) (h2 : a.highU = b.highU) :
    a = b := by
  cases a; cases b; simp_all

theorem toN_lt (t : Timestamp) : t.toN < 18446744073709551616 := by
  have h1 := t.lowU_lt
  have h2 := t.highU_lt
  unfold toN
  omega

theorem toN_inj {a b : Timestamp} (h : a.toN = b.toN) : a = b := by
  have h1 := a.lowU_lt
  have h2 := a.highU_lt
  have h3 := b.lowU_lt
  have h4 := b.highU_lt
  unfold toN at h
  exact ext' (by omega) (by omega)

theorem equals_iff {a b : Timestamp} : a.equals b = true ↔ a = b := by
  unfold equals
  constructor
  · intro h
    simp only [Bool.and_eq_true, beq_iff_eq] at h
    exact ext' h.2 h.1
  · rintro rfl
    simp

theorem equals_eq_false_iff {a b : Timestamp} : a.equals b = false ↔ a ≠ b := by
  rw [← Bool.not_eq_true, Iff.comm, not_iff_not, equals_iff]

theorem toN_ofPat (l h : Nat) (hl : l < 4294967296) (hh : h < 4294967296) :
    (ofPat l h).toN = h * 4294967296 + l := by
  unfold ofPat toN
  simp only
  omega

theorem isZero_iff {t : Timestamp} : t.isZero = true ↔ t.toN = 0 := by
  unfold isZero toN
  simp only [Bool.and_eq_true, beq_iff_eq]
  omega

theorem isNegative_iff {t : Timestamp} : t.isNegative = true ↔ 9223372036854775808 ≤ t.toN := by
  have h1 := t.lowU_lt
  unfold isNegative toN
  simp only [decide_eq_true_eq]
  omega

theorem toNumber_eq (t : Timestamp) :
    t.toNumber = if t.toN < 9223372036854775808 then (t.toN : Int)
      else (t.toN : Int) - 18446744073709551616 := by
  have h1 := t.lowU_lt
  have h2 := t.highU_lt
  unfold toNumber toN sgn32
  split <;> split <;> omega

theorem toNumber_lb (t : Timestamp) : -9223372036854775808 ≤ t.toNumber := by
  rw [toNumber_eq]
  have := t.toN_lt
  split <;> omega

theorem toNumber_ub (t : Timestamp) : t.toNumber < 9223372036854775808 := by
  rw [toNumber_eq]
  have := t.toN_lt
  split <;> omega

theorem toNumber_modeq (t : Timestamp) :
    Int.ModEq 18446744073709551616 t.toNumber (t.toN : Int) := by
  rw [toNumber_eq]
  split
  · rfl
  · unfold Int.ModEq
    omega

theorem toNumber_inj {a b : Timestamp} (h : a.toNumber = b.toNumber) : a = b := by
  apply toN_inj
  rw [toNumber_eq, toNumber_eq] at h
  have := a.toN_lt
  have := b.toN_lt
  split at h <;> split at h <;> omega

theorem toNumber_eq_wrap64 (t : Timestamp) : t.toNumber = wrap64 (t.toN : Int) := by
  rw [toNumber_eq]
  have := t.toN_lt
  unfold wrap64
  split <;> omega

theorem wrap64_congr {x y : Int} (h : Int.ModEq 18446744073709551616 x y) :
    wrap64 x = wrap64 y := by
  unfold Int.ModEq at h
  unfold wrap64
  omega

theorem isNegative_toNumber {t : Timestamp} : t.isNegative = true ↔ t.toNumber < 0 := by
  rw [isNegative_iff, toNumber_eq]
  have := t.toN_lt
  split <;> omega

theorem isZero_toNumber {t : Timestamp} : t.isZero = true ↔ t.toNumber = 0 := by
  rw [isZero_iff, toNumber_eq]
  have := t.toN_lt
  split <;> omega

theorem isOdd_iff {t : Timestamp} : t.isOdd = true ↔ t.toN % 2 = 1 := by
  unfold isOdd toN
  simp only [beq_iff_eq]
  omega

theorem add_toN (a b : Timestamp) :
    (a.add b).toN = (a.toN + b.toN) % 18446744073709551616 := by
  have h1 := a.lowU_lt
  have h2 := a.highU_lt
  have h3 := b.lowU_lt
  have h4 := b.highU_lt
  unfold add ofPat toN
  simp only
  omega

theorem not_toN (t : Timestamp) : t.not.toN = 18446744073709551615 - t.toN := by
  have h1 := t.lowU_lt
  have h2 := t.highU_lt
  unfold Timestamp.not ofPat toN
  simp only
  omega

theorem toN_MIN_VALUE : MIN_VALUE.toN = 9223372036854775808 := by decide

theorem toN_ZERO : ZERO.toN = 0 := by decide

theorem toN_ONE : ONE.toN = 1 := by decide

theorem toN_NEG_ONE : NEG_ONE.toN = 18446744073709551615 := by decide

theorem toN_MAX_VALUE : MAX_VALUE.toN = 9223372036854775807 := by decide

theorem negate_toN (t : Timestamp) :
    t.negate.toN = (18446744073709551616 - t.toN) % 18446744073709551616 := by
  unfold negate
  by_cases h : t.equals MIN_VALUE
  · rw [if_pos h, toN_MIN_VALUE]
    rw [equals_iff] at h
    rw [h, toN_MIN_VALUE]
  · rw [if_neg h]
    rw [add_toN, not_toN, toN_ONE]
    have h5 := t.toN_lt
    have h6 : t.toN ≠ 9223372036854775808 := by
      intro e
      exact h (equals_iff.mpr (toN_inj (e.trans toN_MIN_VALUE.symm)))
    by_cases h0 : t.toN = 0
    · rw [h0]
    · omega

theorem subtract_toN (a b : Timestamp) :
    (a.subtract b).toN =
      (a.toN + (18446744073709551616 - b.toN)) % 18446744073709551616 := by
  unfold subtract
  rw [add_toN, negate_toN]
  have := a.toN_lt
  have := b.toN_lt
  omega

end Timestamp

namespace Timestamp

theorem wrap64_eq_self {z : Int} (h1 : -9223372036854775808 ≤ z)
    (h2 : z < 9223372036854775808) : wrap64 z = z := by
  unfold wrap64
  omega

theorem subtract_toNumber (a b : Timestamp) :
    (a.subtract b).toNumber = wrap64 (a.toNumber - b.toNumber) := by
  have ha := a.toN_lt
  have hb := b.toN_lt
  rw [toNumber_eq (a.subtract b), toNumber_eq a, toNumber_eq b, subtract_toN]
  unfold wrap64
  split <;> split <;> split <;> omega

theorem add_toNumber (a b : Timestamp) :
    (a.add b).toNumber = wrap64 (a.toNumber + b.toNumber) := by
  have ha := a.toN_lt
  have hb := b.toN_lt
  rw [toNumber_eq (a.add b), toNumber_eq a, toNumber_eq b, add_toN]
  unfold wrap64
  split <;> split <;> split <;> omega

theorem negate_toNumber (t : Timestamp) : t.negate.toNumber = wrap64 (-t.toNumber) := by
  have ht := t.toN_lt
  rw [toNumber_eq t.negate, toNumber_eq t, negate_toN]
  unfold wrap64
  split <;> split <;> omega

theorem compare_spec (a b : Timestamp) :
    a.compare b = if a.toNumber = b.toNumber then 0
      else if a.toNumber < b.toNumber then -1 else 1 := by
  unfold compare
  by_cases he : a.equals b = true
  · rw [if_pos he, equals_iff.mp he, if_pos rfl]
  · have hne : a.toNumber ≠ b.toNumber := fun h => he (equals_iff.mpr (toNumber_inj h))
    have hal := a.toNumber_lb
    have hau := a.toNumber_ub
    have hbl := b.toNumber_lb
    have hbu := b.toNumber_ub
    rw [if_neg he, if_neg hne]
    simp only
    rcases Bool.dichotomy a.isNegative with h1 | h1 <;>
      rcases Bool.dichotomy b.isNegative with h2 | h2
    all_goals
      first
      | · -- mixed signs: the sign tests decide
          simp only [h1, h2, Bool.not_true, Bool.not_false, Bool.and_true, Bool.and_false,
            Bool.true_and, Bool.false_and, Bool.false_eq_true, if_false, if_true]
          have ha0 : ¬a.toNumber < 0 := fun hh => by
            rw [isNegative_toNumber.mpr hh] at h1; exact Bool.noConfusion h1
          have hb0 := isNegative_toNumber.mp h2
          rw [if_neg (by omega)]
      | · simp only [h1, h2, Bool.not_true, Bool.not_false, Bool.and_true, Bool.and_false,
            Bool.true_and, Bool.false_and, Bool.false_eq_true, if_false, if_true]
          have ha0 := isNegative_toNumber.mp h1
          have hb0 : ¬b.toNumber < 0 := fun hh => by
            rw [isNegative_toNumber.mpr hh] at h2; exact Bool.noConfusion h2
          rw [if_pos (by omega)]
      | · -- equal signs: the non-overflowing difference decides
          simp only [h1, h2, Bool.not_true, Bool.not_false, Bool.and_true, Bool.and_false,
            Bool.true_and, Bool.false_and, Bool.false_eq_true, if_false, if_true]
          have hsgn : (a.isNegative = true ↔ b.isNegative = true) := by rw [h1, h2]
          have hd : (a.subtract b).toNumber = a.toNumber - b.toNumber := by
            rw [subtract_toNumber]
            rw [isNegative_toNumber, isNegative_toNumber] at hsgn
            apply wrap64_eq_self <;> omega
          by_cases hlt : a.toNumber < b.toNumber
          · rw [if_pos (isNegative_toNumber.mpr (by omega)), if_pos hlt]
          · rw [if_neg (fun hh => hlt (by have := isNegative_toNumber.mp hh; omega)),
              if_neg hlt]

theorem lessThan_iff {a b : Timestamp} : a.lessThan b = true ↔ a.toNumber < b.toNumber := by
  unfold lessThan
  rw [compare_spec]
  simp only [decide_eq_true_eq]
  split_ifs <;> omega

theorem greaterThan_iff {a b : Timestamp} :
    a.greaterThan b = true ↔ b.toNumber < a.toNumber := by
  unfold greaterThan
  rw [compare_spec]
  simp only [decide_eq_true_eq]
  split_ifs <;> omega

theorem greaterThanOrEqual_iff {a b : Timestamp} :
    a.greaterThanOrEqual b = true ↔ b.toNumber ≤ a.toNumber := by
  unfold greaterThanOrEqual
  rw [compare_spec]
  simp only [decide_eq_true_eq]
  split_ifs <;> omega

end Timestamp

theorem ratTrunc_intCast (n : ℤ) : ratTrunc (n : ℚ) = n := by
  unfold ratTrunc
  split
  · rw [← Int.cast_neg, Int.floor_intCast]
    omega
  · rw [Int.floor_intCast]

theorem ratTrunc_of_nonneg {q : ℚ} (h : 0 ≤ q) : ratTrunc q = ⌊q⌋ := by
  unfold ratTrunc
  rw [if_neg (not_lt.mpr h)]

theorem floor_intCast_div_two32 (n : ℤ) :
    ⌊(n : ℚ) / 4294967296⌋ = n / 4294967296 := by
  have := Rat.floor_intCast_div_natCast n 4294967296
  rw [show (((4294967296 : ℕ) : ℚ)) = (4294967296 : ℚ) by norm_num] at this
  rw [this]
  norm_num

namespace Timestamp

theorem toNumber_nonneg_iff {t : Timestamp} : t.isNegative = false ↔ 0 ≤ t.toNumber := by
  rw [← Bool.not_eq_true, isNegative_toNumber]
  omega

theorem toN_cast_of_nonneg {t : Timestamp} (h : 0 ≤ t.toNumber) :
    (t.toN : Int) = t.toNumber := by
  have := t.toN_lt
  rw [toNumber_eq] at h ⊢
  split <;> split at h <;> omega

theorem toNumber_MAX_VALUE : MAX_VALUE.toNumber = 9223372036854775807 := by decide

theorem toNumber_MIN_VALUE : MIN_VALUE.toNumber = -9223372036854775808 := by decide

theorem toNumber_ZERO : ZERO.toNumber = 0 := by decide

theorem toNumber_ONE : ONE.toNumber = 1 := by decide

theorem toNumber_NEG_ONE : NEG_ONE.toNumber = -1 := by decide

theorem toNumber_TWO_PWR_24_ : TWO_PWR_24_.toNumber = 16777216 := by decide

theorem jsFmod_intCast_two32 (n : ℤ) (h0 : 0 ≤ n) :
    jsFmod (n : ℚ) 4294967296 = ((n % 4294967296 : ℤ) : ℚ) := by
  unfold jsFmod
  rw [ratTrunc_of_nonneg (by positivity), floor_intCast_div_two32]
  rw [Int.emod_def]
  push_cast
  ring

theorem fromNumberPos_int (n : ℤ) (h0 : 0 ≤ n) (hu : n < 9223372036854775808) :
    (fromNumberPos (n : ℚ)).toNumber = n := by
  unfold fromNumberPos
  split
  · -- clamped to MAX_VALUE: only n = 2^63 - 1 reaches this
    next h =>
    have hn : (9223372036854775808 : ℤ) ≤ n + 1 := by exact_mod_cast h
    rw [toNumber_MAX_VALUE]
    omega
  · next h =>
    have hn1 : n + 1 < 9223372036854775808 := by
      by_contra hc
      exact h (by exact_mod_cast (by omega : (9223372036854775808 : ℤ) ≤ n + 1))
    rw [jsFmod_intCast_two32 n h0]
    unfold jsPat32
    rw [ratTrunc_intCast, ratTrunc_of_nonneg (by positivity), floor_intCast_div_two32]
    unfold toUint32 ofPat toNumber sgn32
    simp only
    omega

theorem fromNumber_int (n : ℤ) (hl : -9223372036854775808 ≤ n)
    (hu : n < 9223372036854775808) :
    (fromNumber (.finite (n : ℚ))).toNumber = n := by
  simp only [fromNumber]
  split
  · next h =>
    have hn : n ≤ (-9223372036854775808 : ℤ) := by exact_mod_cast h
    rw [toNumber_MIN_VALUE]
    omega
  · next h1 =>
    split
    · next h =>
      have hn : (9223372036854775808 : ℤ) ≤ n + 1 := by exact_mod_cast h
      rw [toNumber_MAX_VALUE]
      omega
    · next h2 =>
      split
      · next h =>
        have hneg : n < 0 := by exact_mod_cast h
        have hgt : (-9223372036854775808 : ℤ) < n := by
          by_contra hc
          exact h1 (by exact_mod_cast (by omega : n ≤ (-9223372036854775808 : ℤ)))
        rw [show (-(n : ℚ)) = ((-n : ℤ) : ℚ) by push_cast; ring]
        rw [negate_toNumber]
        have e1 : (0 : ℤ) ≤ -n := by omega
        have e2 : -n < (9223372036854775808 : ℤ) := by omega
        rw [fromNumberPos_int (-n) e1 e2, neg_neg]
        exact wrap64_eq_self (by omega) (by omega)
      · next h =>
        have hnn : 0 ≤ n := le_of_not_lt fun hc => h (by exact_mod_cast hc)
        exact fromNumberPos_int n hnn hu

end Timestamp

namespace Timestamp

theorem toN_eq_of_modeq {t : Timestamp} {z : Int}
    (h : Int.ModEq 18446744073709551616 (t.toN : Int) z) :
    (t.toN : Int) = z % 18446744073709551616 := by
  have h1 := t.toN_lt
  unfold Int.ModEq at h
  omega

theorem toNumber_ne_min_iff {a : Timestamp} :
    a ≠ MIN_VALUE ↔ a.toNumber ≠ -9223372036854775808 := by
  constructor
  · intro h hc
    exact h (toNumber_inj (hc.trans toNumber_MIN_VALUE.symm))
  · intro h hc
    rw [hc, toNumber_MIN_VALUE] at h
    exact h rfl

theorem negate_toNumber_of_ne_min {a : Timestamp} (h : a ≠ MIN_VALUE) :
    a.negate.toNumber = -a.toNumber := by
  rw [negate_toNumber]
  have h1 := a.toNumber_lb
  have h2 := a.toNumber_ub
  have h3 := toNumber_ne_min_iff.mp h
  exact wrap64_eq_self (by omega) (by omega)

theorem negate_isNegative_false {a : Timestamp} (h1 : a.isNegative = true)
    (h2 : a ≠ MIN_VALUE) : a.negate.isNegative = false := by
  rw [toNumber_nonneg_iff, negate_toNumber_of_ne_min h2]
  have := isNegative_toNumber.mp h1
  omega

theorem mul16_bound {x y : Nat} (hx : x < 65536) (hy : y < 65536) :
    x * y < 4294967296 :=
  lt_of_lt_of_le (Nat.mul_lt_mul'' hx hy) (by norm_num)

theorem multiplyPos_toN (a b : Timestamp) (ha : a.isNegative = false)
    (hb : b.isNegative = false) :
    (a.multiplyPos b).toN = a.toN * b.toN % 18446744073709551616 := by
  have ha' : 0 ≤ a.toNumber := toNumber_nonneg_iff.mp ha
  have hb' : 0 ≤ b.toNumber := toNumber_nonneg_iff.mp hb
  unfold multiplyPos
  split
  · next h =>
    rw [Bool.and_eq_true] at h
    have h1 : a.toNumber < 16777216 := by
      have := lessThan_iff.mp h.1
      rwa [toNumber_TWO_PWR_24_] at this
    have h2 : b.toNumber < 16777216 := by
      have := lessThan_iff.mp h.2
      rwa [toNumber_TWO_PWR_24_] at this
    have hp0 : 0 ≤ a.toNumber * b.toNumber := mul_nonneg ha' hb'
    have hpu : a.toNumber * b.toNumber < 281474976710656 := by nlinarith
    have hres := fromNumber_int (a.toNumber * b.toNumber) (by linarith) (by linarith)
    have hrn : ((fromNumber (.finite ((a.toNumber * b.toNumber : Int) : ℚ))).toN : Int) =
        a.toNumber * b.toNumber := by
      rw [toN_cast_of_nonneg (by rw [hres]; exact hp0), hres]
    have hprod : (a.toN * b.toN : Int) = a.toNumber * b.toNumber := by
      rw [toN_cast_of_nonneg ha', toN_cast_of_nonneg hb']
    have hlt : a.toN * b.toN < 18446744073709551616 := by
      zify
      rw [hprod]
      linarith
    rw [Nat.mod_eq_of_lt hlt]
    exact Nat.cast_injective (hrn.trans (hprod.symm))
  · next hSmall =>
    obtain ⟨aL, aH, haL, haH⟩ := a
    obtain ⟨bL, bH, hbL, hbH⟩ := b
    simp only [toN, ofPat]
    have key : (aH * 4294967296 + aL) * (bH * 4294967296 + bL)
        = (aL % 65536 * (bL % 65536))
          + 65536 * (aL / 65536 * (bL % 65536) + aL % 65536 * (bL / 65536))
          + 4294967296 * (aH % 65536 * (bL % 65536) + aL / 65536 * (bL / 65536)
              + aL % 65536 * (bH % 65536))
          + 281474976710656 * (aH / 65536 * (bL % 65536) + aH % 65536 * (bL / 65536)
              + aL / 65536 * (bH % 65536) + aL % 65536 * (bH / 65536))
          + 18446744073709551616 * (aH / 65536 * (bL / 65536) + aH % 65536 * (bH % 65536)
              + aL / 65536 * (bH / 65536)
              + 65536 * (aH / 65536 * (bH % 65536) + aH % 65536 * (bH / 65536))
              + 4294967296 * (aH / 65536 * (bH / 65536))) := by
      have e1 : aL = 65536 * (aL / 65536) + aL % 65536 := (Nat.div_add_mod aL 65536).symm
      have e2 : aH = 65536 * (aH / 65536) + aH % 65536 := (Nat.div_add_mod aH 65536).symm
      have e3 : bL = 65536 * (bL / 65536) + bL % 65536 := (Nat.div_add_mod bL 65536).symm
      have e4 : bH = 65536 * (bH / 65536) + bH % 65536 := (Nat.div_add_mod bH 65536).symm
      nth_rewrite 1 [e1, e2, e3, e4]
      ring
    rw [key]
    have q1 : aL % 65536 * (bL % 65536) < 4294967296 :=
      mul16_bound (Nat.mod_lt _ (by omega)) (Nat.mod_lt _ (by omega))
    have q2 : aL / 65536 * (bL % 65536) < 4294967296 :=
      mul16_bound (by omega) (Nat.mod_lt _ (by omega))
    have q3 : aL % 65536 * (bL / 65536) < 4294967296 :=
      mul16_bound (Nat.mod_lt _ (by omega)) (by omega)
    have q4 : aH % 65536 * (bL % 65536) < 4294967296 :=
      mul16_bound (Nat.mod_lt _ (by omega)) (Nat.mod_lt _ (by omega))
    have q5 : aL / 65536 * (bL / 65536) < 4294967296 :=
      mul16_bound (by omega) (by omega)
    have q6 : aL % 65536 * (bH % 65536) < 4294967296 :=
      mul16_bound (Nat.mod_lt _ (by omega)) (Nat.mod_lt _ (by omega))
    have q7 : aH / 65536 * (bL % 65536) < 4294967296 :=
      mul16_bound (by omega) (Nat.mod_lt _ (by omega))
    have q8 : aH % 65536 * (bL / 65536) < 4294967296 :=
      mul16_bound (Nat.mod_lt _ (by omega)) (by omega)
    have q9 : aL / 65536 * (bH % 65536) < 4294967296 :=
      mul16_bound (by omega) (Nat.mod_lt _ (by omega))
    have q10 : aL % 65536 * (bH / 65536) < 4294967296 :=
      mul16_bound (Nat.mod_lt _ (by omega)) (by omega)
    generalize hp1 : aL % 65536 * (bL % 65536) = p1 at *
    generalize hp2 : aL / 65536 * (bL % 65536) = p2 at *
    generalize hp3 : aL % 65536 * (bL / 65536) = p3 at *
    generalize hp4 : aH % 65536 * (bL % 65536) = p4 at *
    generalize hp5 : aL / 65536 * (bL / 65536) = p5 at *
    generalize hp6 : aL % 65536 * (bH % 65536) = p6 at *
    generalize hp7 : aH / 65536 * (bL % 65536) = p7 at *
    generalize hp8 : aH % 65536 * (bL / 65536) = p8 at *
    generalize hp9 : aL / 65536 * (bH % 65536) = p9 at *
    generalize hp10 : aL % 65536 * (bH / 65536) = p10 at *
    generalize hj : aH / 65536 * (bL / 65536) + aH % 65536 * (bH % 65536)
      + aL / 65536 * (bH / 65536)
      + 65536 * (aH / 65536 * (bH % 65536) + aH % 65536 * (bH / 65536))
      + 4294967296 * (aH / 65536 * (bH / 65536)) = j at *
    omega

end Timestamp

namespace Timestamp

theorem negate_modeq (t : Timestamp) :
    Int.ModEq 18446744073709551616 (t.negate.toN : Int) (-(t.toN : Int)) := by
  have h := negate_toN t
  have h1 := t.toN_lt
  unfold Int.ModEq
  omega

theorem nat_mod_eq_to_modeq {x y : ℕ} (h : x = y % 18446744073709551616) :
    Int.ModEq 18446744073709551616 (x : ℤ) (y : ℤ) := by
  subst h
  unfold Int.ModEq
  omega

theorem toN_mod_goal {t : Timestamp} {A B : ℕ}
    (h : Int.ModEq 18446744073709551616 (t.toN : Int) ((A : Int) * (B : Int))) :
    t.toN = A * B % 18446744073709551616 := by
  have h2 := toN_eq_of_modeq h
  exact_mod_cast h2

theorem multiply_toN (a b : Timestamp) :
    (a.multiply b).toN = a.toN * b.toN % 18446744073709551616 := by
  unfold multiply
  split
  · next h =>
    rw [toN_ZERO, isZero_iff.mp h]
    simp
  · next h =>
    split
    · next h2 =>
      rw [toN_ZERO, isZero_iff.mp h2]
      simp
    · next h2 =>
      split
      · next h3 =>
        -- a = MIN_VALUE
        rw [equals_iff.mp h3, toN_MIN_VALUE]
        have hbl := b.toN_lt
        split
        · next ho =>
          rw [toN_MIN_VALUE]
          have := isOdd_iff.mp ho
          omega
        · next ho =>
          rw [toN_ZERO]
          have : ¬b.toN % 2 = 1 := fun hc => ho (isOdd_iff.mpr hc)
          omega
      · next h3 =>
        split
        · next h4 =>
          -- b = MIN_VALUE
          rw [equals_iff.mp h4, toN_MIN_VALUE]
          have hal := a.toN_lt
          split
          · next ho =>
            rw [toN_MIN_VALUE]
            have := isOdd_iff.mp ho
            omega
          · next ho =>
            rw [toN_ZERO]
            have : ¬a.toN % 2 = 1 := fun hc => ho (isOdd_iff.mpr hc)
            omega
        · next h4 =>
          have hamin : a ≠ MIN_VALUE := fun hc => h3 (equals_iff.mpr hc)
          have hbmin : b ≠ MIN_VALUE := fun hc => h4 (equals_iff.mpr hc)
          split
          · next ha =>
            split
            · next hb =>
              -- both negative: two negations cancel
              have hna := negate_isNegative_false ha hamin
              have hnb := negate_isNegative_false hb hbmin
              apply toN_mod_goal
              have h1 := nat_mod_eq_to_modeq (multiplyPos_toN a.negate b.negate hna hnb)
              push_cast at h1
              have h2 := (negate_modeq a).mul (negate_modeq b)
              have h3 := h1.trans h2
              rwa [neg_mul_neg] at h3
            · next hb =>
              -- a negative, b not: one negation outside
              have hna := negate_isNegative_false ha hamin
              have hb' : b.isNegative = false := by
                rwa [Bool.not_eq_true] at hb
              apply toN_mod_goal
              have h1 := negate_modeq (a.negate.multiplyPos b)
              have h2 := nat_mod_eq_to_modeq (multiplyPos_toN a.negate b hna hb')
              push_cast at h2
              have h3 := (h2.mul_right ((1 : ℤ))).neg
              have h4 := h1.trans ((h2.neg).trans (((negate_modeq a).mul
                (Int.ModEq.refl (b.toN : Int))).neg))
              rwa [neg_mul, neg_neg] at h4
          · next ha =>
            have ha' : a.isNegative = false := by rwa [Bool.not_eq_true] at ha
            split
            · next hb =>
              -- b negative, a not
              have hnb := negate_isNegative_false hb hbmin
              apply toN_mod_goal
              have h1 := negate_modeq (a.multiplyPos b.negate)
              have h2 := nat_mod_eq_to_modeq (multiplyPos_toN a b.negate ha' hnb)
              push_cast at h2
              have h4 := h1.trans ((h2.neg).trans (((Int.ModEq.refl (a.toN : Int)).mul
                (negate_modeq b)).neg))
              rwa [mul_neg, neg_neg] at h4
            · next hb =>
              have hb' : b.isNegative = false := by rwa [Bool.not_eq_true] at hb
              exact multiplyPos_toN a b ha' hb'

end Timestamp


namespace Timestamp

theorem multiply_toNumber (a b : Timestamp) :
    (a.multiply b).toNumber = wrap64 (a.toNumber * b.toNumber) := by
  rw [toNumber_eq_wrap64]
  apply wrap64_congr
  have h1 := nat_mod_eq_to_modeq (multiply_toN a b)
  push_cast at h1
  exact h1.trans ((a.toNumber_modeq.mul b.toNumber_modeq).symm)

theorem shiftLeft_one_toN (t : Timestamp) :
    (t.shiftLeft 1).toN = 2 * t.toN % 18446744073709551616 := by
  have h1 := t.lowU_lt
  have h2 := t.highU_lt
  unfold shiftLeft
  norm_num
  unfold ofPat toN
  simp only
  omega

theorem divCorrect_succ (other rem : Timestamp) (delta approx : Int)
    (fuel : Nat) (p : Timestamp × Timestamp) :
    divCorrect other rem delta (fuel + 1) approx p =
      if p.2.isNegative || p.2.greaterThan rem then
        divCorrect other rem delta fuel (approx - delta)
          (fromNumber (.finite ((approx - delta : Int) : ℚ)),
            (fromNumber (.finite ((approx - delta : Int) : ℚ))).multiply other)
      else some p := rfl

theorem divCorrect_exit (other rem : Timestamp) (delta approx : Int)
    (fuel : Nat) (p : Timestamp × Timestamp)
    (h1 : p.2.isNegative = false) (h2 : p.2.greaterThan rem = false) :
    divCorrect other rem delta (fuel + 1) approx p = some p := by
  rw [divCorrect_succ, h1, h2]
  rfl

theorem divIter_def (other rem : Timestamp) (fuel : Nat) :
    divIter other rem fuel =
      divCorrect other rem
        (if Nat.clog 2 (max 1 (Int.fdiv rem.toNumber other.toNumber)).toNat ≤ 48 then 1
          else 2 ^ (Nat.clog 2 (max 1 (Int.fdiv rem.toNumber other.toNumber)).toNat - 48))
        fuel (max 1 (Int.fdiv rem.toNumber other.toNumber))
        (fromNumber (.finite ((max 1 (Int.fdiv rem.toNumber other.toNumber) : Int) : ℚ)),
          (fromNumber
            (.finite ((max 1 (Int.fdiv rem.toNumber other.toNumber) : Int) : ℚ))).multiply
              other) := rfl

theorem divLoop_succ (other res rem : Timestamp) (fuel : Nat) :
    divLoop other (fuel + 1) res rem =
      if rem.greaterThanOrEqual other then
        match divIter other rem (fuel + 1) with
        | none => none
        | some p =>
          let approxRes := if p.1.isZero then ONE else p.1
          let approxRem := p.2
          divLoop other fuel (res.add approxRes) (rem.subtract approxRem)
      else some res := rfl

theorem divLoop_base (other res rem : Timestamp) (fuel : Nat)
    (h : rem.greaterThanOrEqual other = false) :
    divLoop other (fuel + 1) res rem = some res := by
  rw [divLoop_succ, h]
  simp only [Bool.false_eq_true, if_false]

theorem divLoop_spec (other res rem : Timestamp) (fuel : Nat)
    (h0 : 0 ≤ rem.toNumber) (hp : 0 < other.toNumber) :
    ∃ r : Timestamp, divLoop other (fuel + 2) res rem = some r ∧
      Int.ModEq 18446744073709551616 (r.toN : Int)
        ((res.toN : Int) + rem.toNumber / other.toNumber) := by
  by_cases hge : rem.greaterThanOrEqual other = true
  · -- one pass of the loop computes the exact quotient and remainder
    have hle : other.toNumber ≤ rem.toNumber := greaterThanOrEqual_iff.mp hge
    have hq1 : 1 ≤ rem.toNumber / other.toNumber :=
      (Int.le_ediv_iff_mul_le hp).mpr (by omega)
    have hqle : rem.toNumber / other.toNumber ≤ rem.toNumber :=
      Int.ediv_le_self _ h0
    have hqub : rem.toNumber / other.toNumber < 9223372036854775808 :=
      lt_of_le_of_lt hqle rem.toNumber_ub
    have hfd : Int.fdiv rem.toNumber other.toNumber
        = rem.toNumber / other.toNumber := Int.fdiv_eq_ediv _ (le_of_lt hp)
    have hmax : max 1 (Int.fdiv rem.toNumber other.toNumber)
        = rem.toNumber / other.toNumber := by
      rw [hfd]
      omega
    have happrox := fromNumber_int (rem.toNumber / other.toNumber) (by omega) hqub
    have hprodle : rem.toNumber / other.toNumber * other.toNumber ≤ rem.toNumber :=
      Int.ediv_mul_le _ (ne_of_gt hp)
    have hprod0 : 0 ≤ rem.toNumber / other.toNumber * other.toNumber := by positivity
    have hru := rem.toNumber_ub
    set q := rem.toNumber / other.toNumber with hqdef
    set aRes := fromNumber (.finite (q : ℚ)) with hares
    set aRem := aRes.multiply other with harem
    have haremv : aRem.toNumber = q * other.toNumber := by
      rw [harem, multiply_toNumber, happrox]
      exact wrap64_eq_self (by omega) (by omega)
    have hg1 : aRem.isNegative = false := toNumber_nonneg_iff.mpr (by omega)
    have hg2 : aRem.greaterThan rem = false := by
      rw [← Bool.not_eq_true]
      simp only [greaterThan_iff, haremv]
      omega
    have hiter : divIter other rem (fuel + 2) = some (aRes, aRem) := by
      rw [divIter_def, hmax]
      exact divCorrect_exit other rem _ q (fuel + 1) (aRes, aRem) hg1 hg2
    rw [divLoop_succ, hge, if_pos rfl, hiter]
    simp only
    have hz : aRes.isZero = false := by
      rw [← Bool.not_eq_true]
      simp only [isZero_toNumber, happrox]
      omega
    rw [hz]
    simp only [Bool.false_eq_true, if_false]
    have hremv : (rem.subtract aRem).toNumber = rem.toNumber - q * other.toNumber := by
      rw [subtract_toNumber, haremv]
      have := rem.toNumber_ub
      exact wrap64_eq_self (by omega) (by omega)
    have hkey : rem.toNumber - q * other.toNumber = rem.toNumber % other.toNumber := by
      rw [hqdef, mul_comm, ← Int.emod_def]
    have hremlt : (rem.subtract aRem).greaterThanOrEqual other = false := by
      rw [← Bool.not_eq_true]
      simp only [greaterThanOrEqual_iff, hremv, hkey]
      have := Int.emod_lt_of_pos rem.toNumber hp
      omega
    rw [divLoop_base other _ _ fuel hremlt]
    refine ⟨res.add aRes, rfl, ?_⟩
    have haddN := add_toN res aRes
    have hq : (aRes.toN : Int) = q := by
      rw [toN_cast_of_nonneg (by omega), happrox]
    have hcast : ((res.add aRes).toN : Int)
        = ((res.toN + aRes.toN : ℕ) : ℤ) % 18446744073709551616 := by
      exact_mod_cast congrArg (Nat.cast (R := ℤ)) haddN
    unfold Int.ModEq
    push_cast at hcast
    rw [hq] at hcast
    omega
  · -- the loop is not entered: the quotient is zero
    have hge' : rem.greaterThanOrEqual other = false := Bool.eq_false_iff.mpr hge
    have hlt : rem.toNumber < other.toNumber := by
      by_contra hc
      exact hge (greaterThanOrEqual_iff.mpr (le_of_not_lt hc))
    rw [show fuel + 2 = (fuel + 1) + 1 by omega,
      divLoop_base other res rem (fuel + 1) hge']
    refine ⟨res, rfl, ?_⟩
    rw [Int.ediv_eq_zero_of_lt h0 hlt, add_zero]

end Timestamp

namespace Timestamp

theorem divF_succ (fuel : Nat) (a other : Timestamp) :
    divF (fuel + 1) a other =
      (if other.isZero then some (.error .divisionByZero)
      else if a.isZero then some (.ok ZERO)
      else if a.equals MIN_VALUE then
        if other.equals ONE || other.equals NEG_ONE then some (.ok MIN_VALUE)
        else if other.equals MIN_VALUE then some (.ok ONE)
        else
          let halfThis := a.shiftRight 1
          match divF fuel halfThis other with
          | none => none
          | some (.error e) => some (.error e)
          | some (.ok q) =>
            let approx := q.shiftLeft 1
            if approx.equals ZERO then
              some (.ok (if other.isNegative then ONE else NEG_ONE))
            else
              let rem := a.subtract (other.multiply approx)
              match divF fuel rem other with
              | none => none
              | some (.error e) => some (.error e)
              | some (.ok r) => some (.ok (approx.add r))
      else if other.equals MIN_VALUE then some (.ok ZERO)
      else if a.isNegative then
        if other.isNegative then divF fuel a.negate other.negate
        else
          match divF fuel a.negate other with
          | none => none
          | some (.error e) => some (.error e)
          | some (.ok q) => some (.ok q.negate)
      else if other.isNegative then
        match divF fuel a other.negate with
        | none => none
        | some (.error e) => some (.error e)
        | some (.ok q) => some (.ok q.negate)
      else
        match divLoop other (fuel + 1) ZERO a with
        | none => none
        | some r => some (.ok r)) := rfl

theorem equals_false_of_toNumber_ne {a b : Timestamp} (h : a.toNumber ≠ b.toNumber) :
    a.equals b = false :=
  equals_eq_false_iff.mpr fun e => h (by rw [e])

theorem isZero_false_of_toNumber_ne {a : Timestamp} (h : a.toNumber ≠ 0) :
    a.isZero = false := by
  rw [← Bool.not_eq_true]
  intro hc
  exact h (isZero_toNumber.mp hc)

theorem divF_pos (fuel : Nat) (a other : Timestamp)
    (h0 : 0 ≤ a.toNumber) (hp : 0 < other.toNumber) :
    ∃ d : Timestamp, divF (fuel + 2) a other = some (.ok d) ∧
      d.toNumber = a.toNumber / other.toNumber := by
  have hoz : other.isZero = false := isZero_false_of_toNumber_ne (by omega)
  have homin : other.equals MIN_VALUE = false :=
    equals_false_of_toNumber_ne (by rw [toNumber_MIN_VALUE]; omega)
  have hno : other.isNegative = false := toNumber_nonneg_iff.mpr (le_of_lt hp)
  rw [show fuel + 2 = (fuel + 1) + 1 by omega, divF_succ]
  rw [hoz]
  simp only [Bool.false_eq_true, if_false]
  by_cases haz : a.isZero = true
  · rw [haz]
    simp only [if_true]
    refine ⟨ZERO, rfl, ?_⟩
    rw [toNumber_ZERO, isZero_toNumber.mp haz, Int.zero_ediv]
  · have haz' : a.isZero = false := Bool.eq_false_iff.mpr haz
    have hamin : a.equals MIN_VALUE = false :=
      equals_false_of_toNumber_ne (by rw [toNumber_MIN_VALUE]; omega)
    have hna : a.isNegative = false := toNumber_nonneg_iff.mpr h0
    rw [haz', hamin, homin, hna, hno]
    simp only [Bool.false_eq_true, if_false]
    obtain ⟨r, hr, hrv⟩ := divLoop_spec other ZERO a fuel h0 hp
    rw [hr]
    refine ⟨r, rfl, ?_⟩
    have hq0 : 0 ≤ a.toNumber / other.toNumber := Int.ediv_nonneg h0 (le_of_lt hp)
    have hqu : a.toNumber / other.toNumber < 9223372036854775808 :=
      lt_of_le_of_lt (Int.ediv_le_self _ h0) a.toNumber_ub
    have hmod := r.toNumber_modeq
    have hlb := r.toNumber_lb
    have hub := r.toNumber_ub
    rw [toN_ZERO] at hrv
    unfold Int.ModEq at hmod hrv
    push_cast at hrv
    omega

end Timestamp

namespace Timestamp

theorem tdiv_pos_neg {x y : Int} (hx : 0 ≤ x) (hy : y < 0) :
    Int.tdiv x y = -(x / (-y)) := by
  have h := Int.tdiv_neg x (-y)
  rw [neg_neg] at h
  rw [h, Int.tdiv_eq_ediv hx (by omega)]

theorem tdiv_neg_pos {x y : Int} (hx : x ≤ 0) (hy : 0 < y) :
    Int.tdiv x y = -((-x) / y) := by
  have h := Int.neg_tdiv (-x) y
  rw [neg_neg] at h
  rw [h, Int.tdiv_eq_ediv (by omega) (by omega)]

theorem tdiv_neg_neg {x y : Int} (hx : x ≤ 0) (hy : y < 0) :
    Int.tdiv x y = (-x) / (-y) := by
  have h1 := Int.neg_tdiv (-x) y
  rw [neg_neg] at h1
  have h2 := Int.tdiv_neg (-x) (-y)
  rw [neg_neg] at h2
  rw [h1, h2, neg_neg, Int.tdiv_eq_ediv (by omega) (by omega)]

theorem divF_nonmin (fuel : Nat) (a other : Timestamp)
    (hamin : a ≠ MIN_VALUE) (hoz : other.isZero = false)
    (homin : other ≠ MIN_VALUE) :
    ∃ d : Timestamp, divF (fuel + 3) a other = some (.ok d) ∧
      d.toNumber = Int.tdiv a.toNumber other.toNumber := by
  have hanum := toNumber_ne_min_iff.mp hamin
  have honum := toNumber_ne_min_iff.mp homin
  have honz : other.toNumber ≠ 0 :=
    fun hc => Bool.eq_false_iff.mp hoz (isZero_toNumber.mpr hc)
  have haminb : a.equals MIN_VALUE = false := equals_eq_false_iff.mpr hamin
  have hominb : other.equals MIN_VALUE = false := equals_eq_false_iff.mpr homin
  rcases Bool.dichotomy a.isNegative with hna | hna <;>
    rcases Bool.dichotomy other.isNegative with hno | hno
  · -- both non-negative
    have h0 := toNumber_nonneg_iff.mp hna
    have hp : 0 < other.toNumber := lt_of_le_of_ne (toNumber_nonneg_iff.mp hno)
      (Ne.symm honz)
    obtain ⟨d, hd, hdv⟩ := divF_pos (fuel + 1) a other h0 hp
    exact ⟨d, hd, by rw [hdv, Int.tdiv_eq_ediv h0 (le_of_lt hp)]⟩
  · -- a non-negative, other negative
    have h0 := toNumber_nonneg_iff.mp hna
    have hbneg := isNegative_toNumber.mp hno
    have hnov : other.negate.toNumber = -other.toNumber :=
      negate_toNumber_of_ne_min homin
    have hp : 0 < other.negate.toNumber := by omega
    by_cases haz : a.isZero = true
    · rw [show fuel + 3 = (fuel + 2) + 1 by omega, divF_succ, hoz]
      simp only [Bool.false_eq_true, if_false]
      rw [haz]
      simp only [if_true]
      refine ⟨ZERO, rfl, ?_⟩
      rw [toNumber_ZERO, isZero_toNumber.mp haz, Int.zero_tdiv]
    · have haz' : a.isZero = false := Bool.eq_false_iff.mpr haz
      rw [show fuel + 3 = (fuel + 2) + 1 by omega, divF_succ, hoz, haz', haminb,
        hominb, hna, hno]
      simp only [Bool.false_eq_true, if_false, if_true]
      obtain ⟨q, hq, hqv⟩ := divF_pos fuel a other.negate h0 hp
      rw [hq]
      have hq0 : 0 ≤ q.toNumber := by
        rw [hqv]
        exact Int.ediv_nonneg h0 (le_of_lt hp)
      have hqmin : q ≠ MIN_VALUE := toNumber_ne_min_iff.mpr (by omega)
      refine ⟨q.negate, rfl, ?_⟩
      rw [negate_toNumber_of_ne_min hqmin, hqv, hnov,
        tdiv_pos_neg h0 hbneg]
  · -- a negative, other non-negative
    have haneg := isNegative_toNumber.mp hna
    have hp : 0 < other.toNumber := lt_of_le_of_ne (toNumber_nonneg_iff.mp hno)
      (Ne.symm honz)
    have hnav : a.negate.toNumber = -a.toNumber := negate_toNumber_of_ne_min hamin
    have haz' : a.isZero = false := isZero_false_of_toNumber_ne (by omega)
    rw [show fuel + 3 = (fuel + 2) + 1 by omega, divF_succ, hoz, haz', haminb,
      hominb, hna, hno]
    simp only [Bool.false_eq_true, if_false, if_true]
    obtain ⟨q, hq, hqv⟩ := divF_pos fuel a.negate other (by omega) hp
    rw [hq]
    have hq0 : 0 ≤ q.toNumber := by
      rw [hqv]
      exact Int.ediv_nonneg (by omega) (le_of_lt hp)
    have hqmin : q ≠ MIN_VALUE := toNumber_ne_min_iff.mpr (by omega)
    refine ⟨q.negate, rfl, ?_⟩
    rw [negate_toNumber_of_ne_min hqmin, hqv, hnav, tdiv_neg_pos (le_of_lt haneg) hp]
  · -- both negative
    have haneg := isNegative_toNumber.mp hna
    have hbneg := isNegative_toNumber.mp hno
    have hnav : a.negate.toNumber = -a.toNumber := negate_toNumber_of_ne_min hamin
    have hnov : other.negate.toNumber = -other.toNumber :=
      negate_toNumber_of_ne_min homin
    have haz' : a.isZero = false := isZero_false_of_toNumber_ne (by omega)
    rw [show fuel + 3 = (fuel + 2) + 1 by omega, divF_succ, hoz, haz', haminb,
      hominb, hna, hno]
    simp only [Bool.false_eq_true, if_false, if_true]
    obtain ⟨q, hq, hqv⟩ := divF_pos fuel a.negate other.negate (by omega) (by omega)
    rw [hq]
    refine ⟨q, rfl, ?_⟩
    rw [hqv, hnav, hnov, tdiv_neg_neg (le_of_lt haneg) hbneg]

end Timestamp

namespace Timestamp

theorem divF_min (fuel : Nat) (other : Timestamp) (hoz : other.isZero = false)
    (h1 : other.equals ONE = false) (hm1 : other.equals NEG_ONE = false)
    (hmm : other.equals MIN_VALUE = false) :
    ∃ d : Timestamp, divF (fuel + 4) MIN_VALUE other = some (.ok d) ∧
      d.toNumber = Int.tdiv (-9223372036854775808) other.toNumber := by
  have honz : other.toNumber ≠ 0 :=
    fun hc => Bool.eq_false_iff.mp hoz (isZero_toNumber.mpr hc)
  have hone : other.toNumber ≠ 1 := fun hc =>
    Bool.eq_false_iff.mp h1 (equals_iff.mpr (toNumber_inj (by rw [hc, toNumber_ONE])))
  have hnone : other.toNumber ≠ -1 := fun hc =>
    Bool.eq_false_iff.mp hm1
      (equals_iff.mpr (toNumber_inj (by rw [hc, toNumber_NEG_ONE])))
  have homin : other ≠ MIN_VALUE := equals_eq_false_iff.mp hmm
  have hbmin : other.toNumber ≠ -9223372036854775808 := toNumber_ne_min_iff.mp homin
  have hlb := other.toNumber_lb
  have hub := other.toNumber_ub
  -- navigate to the MIN_VALUE-dividend branch
  rw [show fuel + 4 = (fuel + 3) + 1 by omega, divF_succ, hoz,
    show MIN_VALUE.isZero = false by decide,
    show MIN_VALUE.equals MIN_VALUE = true by decide, h1, hm1, hmm]
  simp only [Bool.false_eq_true, Bool.or_self, if_false, if_true]
  -- the halved dividend is the concrete value -2^62
  have hhalfv : (MIN_VALUE.shiftRight 1).toNumber = -4611686018427387904 := by decide
  have hhalfmin : MIN_VALUE.shiftRight 1 ≠ MIN_VALUE :=
    toNumber_ne_min_iff.mpr (by rw [hhalfv]; omega)
  obtain ⟨q0, hq0, hq0v⟩ := divF_nonmin fuel (MIN_VALUE.shiftRight 1) other hhalfmin
    hoz homin
  rw [hhalfv] at hq0v
  rw [hq0]
  simp only
  -- abbreviations for the magnitude of the divisor and the Euclidean pieces of 2^62
  obtain ⟨bN, hbNdef⟩ : ∃ n : ℕ, other.toNumber.natAbs = n := ⟨_, rfl⟩
  have hbn2 : 2 ≤ bN := by omega
  have hbnu : bN ≤ 9223372036854775807 := by omega
  obtain ⟨qN, hqNdef⟩ : ∃ n : ℕ, 4611686018427387904 / bN = n := ⟨_, rfl⟩
  obtain ⟨sN, hsNdef⟩ : ∃ n : ℕ, 4611686018427387904 % bN = n := ⟨_, rfl⟩
  have hdm : bN * qN + sN = 4611686018427387904 := by
    rw [← hqNdef, ← hsNdef]
    exact Nat.div_add_mod _ _
  have hslt : sN < bN := by
    rw [← hsNdef]
    exact Nat.mod_lt _ (by omega)
  have hq62 : qN ≤ 2305843009213693952 := by
    rw [← hqNdef]
    exact Nat.div_le_div_left hbn2 (by norm_num)
  -- the value of the doubled approximation
  have hq0abs : q0.toNumber.natAbs = qN := by
    rw [hq0v, Int.natAbs_tdiv, ← hqNdef, ← hbNdef]
    norm_num
    rfl
  have hapv : (q0.shiftLeft 1).toNumber = 2 * q0.toNumber := by
    have h := shiftLeft_one_toN q0
    have hm := (q0.shiftLeft 1).toNumber_modeq
    have hm2 := q0.toNumber_modeq
    have hlb2 := (q0.shiftLeft 1).toNumber_lb
    have hub2 := (q0.shiftLeft 1).toNumber_ub
    have hnl1 := (q0.shiftLeft 1).toN_lt
    have hnl2 := q0.toN_lt
    have hc : ((q0.shiftLeft 1).toN : Int)
        = ((2 * q0.toN % 18446744073709551616 : ℕ) : ℤ) := by
      exact_mod_cast congrArg (Nat.cast (R := ℤ)) h
    push_cast at hc
    unfold Int.ModEq at hm hm2
    omega
  by_cases hz : (q0.shiftLeft 1).equals ZERO = true
  · -- the approximation collapsed to zero: |other| > 2^62, quotient is ±1
    rw [hz]
    simp only [if_true]
    have hz0 : q0.toNumber = 0 := by
      have he := equals_iff.mp hz
      have hv : (q0.shiftLeft 1).toNumber = 0 := by rw [he, toNumber_ZERO]
      omega
    have hbig : 4611686018427387904 < bN := by
      have hq0' : qN = 0 := by omega
      rw [← hq0', ← hqNdef] at hq0'
      exact (Nat.div_eq_zero_iff (by omega)).mp (by omega)
    have hchunk1 : 9223372036854775808 / bN = 1 :=
      Nat.div_eq_of_lt_le (by omega) (by omega)
    rcases Bool.dichotomy other.isNegative with hno | hno <;> rw [hno]
    · -- positive divisor: NEG_ONE
      simp only [Bool.false_eq_true, if_false]
      refine ⟨NEG_ONE, rfl, ?_⟩
      rw [toNumber_NEG_ONE]
      have hbpos : 0 < other.toNumber := by
        have := toNumber_nonneg_iff.mp hno
        omega
      rw [tdiv_neg_pos (by omega) hbpos]
      rw [show (-(-9223372036854775808 : ℤ)) = ((9223372036854775808 : ℕ) : ℤ) by
        norm_num,
        show other.toNumber = ((bN : ℕ) : ℤ) by omega, ← Int.natCast_div, hchunk1]
      norm_num
    · -- negative divisor: ONE
      simp only [if_true]
      refine ⟨ONE, rfl, ?_⟩
      rw [toNumber_ONE]
      have hbneg : other.toNumber < 0 := isNegative_toNumber.mp hno
      rw [tdiv_neg_neg (by omega) hbneg]
      rw [show (-(-9223372036854775808 : ℤ)) = ((9223372036854775808 : ℕ) : ℤ) by
        norm_num,
        show (-other.toNumber) = ((bN : ℕ) : ℤ) by omega, ← Int.natCast_div, hchunk1]
      norm_num
  · -- the main corrected path
    have hz' : (q0.shiftLeft 1).equals ZERO = false := Bool.eq_false_iff.mpr hz
    rw [hz']
    simp only [Bool.false_eq_true, if_false]
    have hq0nz : q0.toNumber ≠ 0 := by
      intro hc
      apply hz
      apply equals_iff.mpr
      apply toNumber_inj
      rw [hapv, hc, toNumber_ZERO]
      ring
    have hqN1 : 1 ≤ qN := by omega
    -- the sign-free product identity: other * q0 = -(bN * qN) = -(2^62 - sN)
    have hF1 : other.toNumber * q0.toNumber = -(4611686018427387904 - (sN : ℤ)) := by
      have hbnqn : (bN : ℤ) * (qN : ℤ) = 4611686018427387904 - (sN : ℤ) := by
        push_cast
        omega
      rcases lt_or_gt_of_ne honz with hbneg | hbpos
      · have hq0pos : q0.toNumber = (qN : ℤ) := by
          rw [hq0v, tdiv_neg_neg (by omega) hbneg]
          rw [show (-(-4611686018427387904 : ℤ)) = ((4611686018427387904 : ℕ) : ℤ) by
            norm_num]
          rw [show (-other.toNumber) = ((bN : ℕ) : ℤ) by omega, ← Int.natCast_div,
            hqNdef]
        rw [hq0pos, ← hbnqn]
        have hbv : other.toNumber = -(bN : ℤ) := by omega
        rw [hbv]
        ring
      · have hq0neg : q0.toNumber = -(qN : ℤ) := by
          rw [hq0v, tdiv_neg_pos (by omega) hbpos]
          rw [show (-(-4611686018427387904 : ℤ)) = ((4611686018427387904 : ℕ) : ℤ) by
            norm_num]
          rw [show other.toNumber = ((bN : ℕ) : ℤ) by omega, ← Int.natCast_div,
            hqNdef]
        rw [hq0neg, ← hbnqn]
        have hbv : other.toNumber = (bN : ℤ) := by omega
        rw [hbv]
        ring
    -- the product other * approx and the remainder
    have hble : bN ≤ bN * qN := Nat.le_mul_of_pos_right bN (by omega)
    have hsle : (sN : ℤ) < 4611686018427387904 := by omega
    have hprod : (other.multiply (q0.shiftLeft 1)).toNumber
        = -(9223372036854775808 - 2 * (sN : ℤ)) := by
      rw [multiply_toNumber, hapv]
      rw [show other.toNumber * (2 * q0.toNumber)
          = 2 * (other.toNumber * q0.toNumber) by ring, hF1]
      rw [show (2 : ℤ) * -(4611686018427387904 - (sN : ℤ))
          = -(9223372036854775808 - 2 * (sN : ℤ)) by ring]
      refine wrap64_eq_self ?_ ?_ <;> omega
    have hremv : (MIN_VALUE.subtract (other.multiply (q0.shiftLeft 1))).toNumber
        = -(2 * (sN : ℤ)) := by
      rw [subtract_toNumber, toNumber_MIN_VALUE, hprod]
      rw [show (-9223372036854775808 - -(9223372036854775808 - 2 * (sN : ℤ)))
          = -(2 * (sN : ℤ)) by ring]
      refine wrap64_eq_self ?_ ?_ <;> omega
    have hremmin : MIN_VALUE.subtract (other.multiply (q0.shiftLeft 1)) ≠ MIN_VALUE :=
      toNumber_ne_min_iff.mpr (by rw [hremv]; omega)
    obtain ⟨r2, hr2, hr2v⟩ := divF_nonmin fuel
      (MIN_VALUE.subtract (other.multiply (q0.shiftLeft 1))) other hremmin hoz homin
    rw [hremv] at hr2v
    rw [hr2]
    simp only
    refine ⟨(q0.shiftLeft 1).add r2, rfl, ?_⟩
    -- final accumulation: approx + correction equals the true quotient
    obtain ⟨kN, hkNdef⟩ : ∃ n : ℕ, 2 * sN / bN = n := ⟨_, rfl⟩
    have hchunk : 9223372036854775808 / bN = kN + 2 * qN := by
      have hx := Nat.add_mul_div_left (2 * sN) (2 * qN) (show 0 < bN by omega)
      have hy : 2 * sN + bN * (2 * qN) = 9223372036854775808 := by
        have hbq : bN * (2 * qN) = 2 * (bN * qN) := by ring
        rw [hbq]
        omega
      rw [hy, hkNdef] at hx
      exact hx
    have h2s : kN ≤ 1 := by
      rw [← hkNdef]
      have hlt2 : 2 * sN / bN < 2 := Nat.div_lt_of_lt_mul (by omega)
      omega
    rcases lt_or_gt_of_ne honz with hbneg | hbpos
    · -- negative divisor: everything is non-negative
      have hr2pos : r2.toNumber = (kN : ℤ) := by
        rw [hr2v, tdiv_neg_neg (by omega) hbneg]
        rw [show (-(-(2 * (sN : ℤ)))) = ((2 * sN : ℕ) : ℤ) by push_cast; ring]
        rw [show (-other.toNumber) = ((bN : ℕ) : ℤ) by omega, ← Int.natCast_div,
          hkNdef]
      have hq0pos : q0.toNumber = (qN : ℤ) := by
        rw [hq0v, tdiv_neg_neg (by omega) hbneg]
        rw [show (-(-4611686018427387904 : ℤ)) = ((4611686018427387904 : ℕ) : ℤ) by
          norm_num]
        rw [show (-other.toNumber) = ((bN : ℕ) : ℤ) by omega, ← Int.natCast_div,
          hqNdef]
      have htd : Int.tdiv (-9223372036854775808) other.toNumber
          = ((kN + 2 * qN : ℕ) : ℤ) := by
        rw [tdiv_neg_neg (by omega) hbneg]
        rw [show (-(-9223372036854775808 : ℤ)) = ((9223372036854775808 : ℕ) : ℤ) by
          norm_num]
        rw [show (-other.toNumber) = ((bN : ℕ) : ℤ) by omega, ← Int.natCast_div,
          hchunk]
      rw [add_toNumber, hapv, hq0pos, hr2pos, htd]
      rw [show (2 : ℤ) * (qN : ℤ) + (kN : ℤ) = ((kN + 2 * qN : ℕ) : ℤ) by
        push_cast; ring]
      refine wrap64_eq_self ?_ ?_ <;> push_cast <;> omega
    · -- positive divisor: everything is non-positive
      have hr2neg : r2.toNumber = -(kN : ℤ) := by
        rw [hr2v, tdiv_neg_pos (by omega) hbpos]
        rw [show (-(-(2 * (sN : ℤ)))) = ((2 * sN : ℕ) : ℤ) by push_cast; ring]
        rw [show other.toNumber = ((bN : ℕ) : ℤ) by omega, ← Int.natCast_div, hkNdef]
      have hq0neg : q0.toNumber = -(qN : ℤ) := by
        rw [hq0v, tdiv_neg_pos (by omega) hbpos]
        rw [show (-(-4611686018427387904 : ℤ)) = ((4611686018427387904 : ℕ) : ℤ) by
          norm_num]
        rw [show other.toNumber = ((bN : ℕ) : ℤ) by omega, ← Int.natCast_div, hqNdef]
      have htd : Int.tdiv (-9223372036854775808) other.toNumber
          = -((kN + 2 * qN : ℕ) : ℤ) := by
        rw [tdiv_neg_pos (by omega) hbpos]
        rw [show (-(-9223372036854775808 : ℤ)) = ((9223372036854775808 : ℕ) : ℤ) by
          norm_num]
        rw [show other.toNumber = ((bN : ℕ) : ℤ) by omega, ← Int.natCast_div, hchunk]
      rw [add_toNumber, hapv, hq0neg, hr2neg, htd]
      rw [show (2 : ℤ) * -(qN : ℤ) + -(kN : ℤ) = -((kN + 2 * qN : ℕ) : ℤ) by
        push_cast; ring]
      refine wrap64_eq_self ?_ ?_ <;> push_cast <;> omega

end Timestamp

namespace Timestamp

theorem wrap64_modeq (z : Int) : Int.ModEq 18446744073709551616 (wrap64 z) z := by
  unfold wrap64 Int.ModEq
  omega

theorem wrap64_add_wrap_left (a b : Int) :
    wrap64 (wrap64 a + b) = wrap64 (a + b) :=
  wrap64_congr ((wrap64_modeq a).add_right b)

theorem divF_spec (fuel : Nat) (a other : Timestamp) (hoz : other.isZero = false) :
    ∃ d : Timestamp, divF (fuel + 4) a other = some (.ok d) ∧
      d.toNumber = i64div a.toNumber other.toNumber := by
  have honz : other.toNumber ≠ 0 :=
    fun hc => Bool.eq_false_iff.mp hoz (isZero_toNumber.mpr hc)
  by_cases hamin : a = MIN_VALUE
  · subst hamin
    by_cases h1 : other = ONE
    · subst h1
      refine ⟨MIN_VALUE, ?_, by decide⟩
      rw [show fuel + 4 = (fuel + 3) + 1 by omega, divF_succ,
        show ONE.isZero = false by decide, show MIN_VALUE.isZero = false by decide,
        show MIN_VALUE.equals MIN_VALUE = true by decide,
        show (ONE.equals ONE || ONE.equals NEG_ONE) = true by decide]
      simp only [Bool.false_eq_true, if_false, if_true]
    · by_cases hm1 : other = NEG_ONE
      · subst hm1
        refine ⟨MIN_VALUE, ?_, by decide⟩
        rw [show fuel + 4 = (fuel + 3) + 1 by omega, divF_succ,
          show NEG_ONE.isZero = false by decide,
          show MIN_VALUE.isZero = false by decide,
          show MIN_VALUE.equals MIN_VALUE = true by decide,
          show (NEG_ONE.equals ONE || NEG_ONE.equals NEG_ONE) = true by decide]
        simp only [Bool.false_eq_true, if_false, if_true]
      · by_cases hmm : other = MIN_VALUE
        · subst hmm
          refine ⟨ONE, ?_, by decide⟩
          rw [show fuel + 4 = (fuel + 3) + 1 by omega, divF_succ,
            show MIN_VALUE.isZero = false by decide,
            show MIN_VALUE.equals MIN_VALUE = true by decide,
            show (MIN_VALUE.equals ONE || MIN_VALUE.equals NEG_ONE) = false by decide]
          simp only [Bool.false_eq_true, if_false, if_true]
        · obtain ⟨d, hd, hdv⟩ := divF_min fuel other hoz
            (equals_eq_false_iff.mpr h1) (equals_eq_false_iff.mpr hm1)
            (equals_eq_false_iff.mpr hmm)
          have hnone : other.toNumber ≠ -1 := fun hc =>
            hm1 (toNumber_inj (by rw [hc, toNumber_NEG_ONE]))
          refine ⟨d, hd, ?_⟩
          rw [hdv, toNumber_MIN_VALUE]
          unfold i64div
          rw [if_neg (fun hc => hnone hc.2)]
  · by_cases hmm : other = MIN_VALUE
    · subst hmm
      have haminb : a.equals MIN_VALUE = false := equals_eq_false_iff.mpr hamin
      have hanum := toNumber_ne_min_iff.mp hamin
      have hlb := a.toNumber_lb
      have hub := a.toNumber_ub
      refine ⟨ZERO, ?_, ?_⟩
      · rw [show fuel + 4 = (fuel + 3) + 1 by omega, divF_succ,
          show MIN_VALUE.isZero = false by decide, haminb,
          show MIN_VALUE.equals MIN_VALUE = true by decide]
        rcases Bool.dichotomy a.isZero with haz | haz <;> rw [haz] <;>
          simp only [Bool.false_eq_true, if_false, if_true]
      · rw [toNumber_ZERO, toNumber_MIN_VALUE]
        unfold i64div
        rw [if_neg (fun hc => by norm_num at hc)]
        refine Eq.symm ?_
        rcases le_or_lt 0 a.toNumber with h0 | hneg
        · rw [tdiv_pos_neg h0 (by norm_num),
            show (-(-9223372036854775808 : ℤ)) = 9223372036854775808 by norm_num,
            Int.ediv_eq_zero_of_lt h0 (by omega)]
          norm_num
        · rw [tdiv_neg_neg (le_of_lt hneg) (by norm_num),
            show (-(-9223372036854775808 : ℤ)) = 9223372036854775808 by norm_num]
          exact Int.ediv_eq_zero_of_lt (by omega) (by omega)
    · obtain ⟨d, hd, hdv⟩ := divF_nonmin (fuel + 1) a other hamin hoz hmm
      refine ⟨d, by rw [show fuel + 4 = fuel + 1 + 3 by omega]; exact hd, ?_⟩
      rw [hdv]
      unfold i64div
      rw [if_neg (fun hc => (toNumber_ne_min_iff.mp hamin) hc.1)]

theorem moduloF_spec (fuel : Nat) (a other : Timestamp) (hoz : other.isZero = false) :
    ∃ d m : Timestamp, divF (fuel + 4) a other = some (.ok d) ∧
      moduloF (fuel + 4) a other = some (.ok (a.subtract (d.multiply other))) := by
  obtain ⟨d, hd, hdv⟩ := divF_spec fuel a other hoz
  exact ⟨d, a.subtract (d.multiply other), hd, by unfold moduloF; rw [hd]⟩

theorem divF_zero (fuel : Nat) (a other : Timestamp) (hoz : other.isZero = true) :
    divF (fuel + 1) a other = some (.error .divisionByZero) := by
  rw [divF_succ, hoz]
  simp only [if_true]

theorem moduloF_zero (fuel : Nat) (a other : Timestamp) (hoz : other.isZero = true) :
    moduloF (fuel + 1) a other = some (.error .divisionByZero) := by
  unfold moduloF
  rw [divF_zero fuel a other hoz]

end Timestamp

theorem charDigit_digitChar : ∀ d : Nat, d < 36 → charDigit (digitChar d) = some d := by
  decide

theorem digitChar_ne_minus : ∀ d : Nat, d < 36 → digitChar d ≠ '-' := by
  decide

theorem digitChar_ne_plus : ∀ d : Nat, d < 36 → digitChar d ≠ '+' := by
  decide

theorem digitsVal_nil (r : Nat) : digitsVal r [] = 0 := rfl

theorem foldlDigits_eq (r : Nat) :
    ∀ (B : List Nat) (a : Nat),
      List.foldl (fun x d => x * r + d) a B = a * r ^ B.length + digitsVal r B := by
  intro B
  induction B with
  | nil => intro a; simp [digitsVal]
  | cons d bs ih =>
    intro a
    have h2 : digitsVal r (d :: bs) = (0 * r + d) * r ^ bs.length + digitsVal r bs := by
      show List.foldl _ (0 * r + d) bs = _
      rw [ih]
    show List.foldl _ (a * r + d) bs = _
    rw [ih, h2, List.length_cons]
    ring

theorem digitsVal_cons (r d : Nat) (bs : List Nat) :
    digitsVal r (d :: bs) = d * r ^ bs.length + digitsVal r bs := by
  have h2 : digitsVal r (d :: bs) = (0 * r + d) * r ^ bs.length + digitsVal r bs := by
    show List.foldl _ (0 * r + d) bs = _
    rw [foldlDigits_eq]
  rw [h2]
  ring

theorem digitsVal_append (r : Nat) (A B : List Nat) :
    digitsVal r (A ++ B) = digitsVal r A * r ^ B.length + digitsVal r B := by
  have h : digitsVal r (A ++ B) = List.foldl (fun x d => x * r + d) (digitsVal r A) B := by
    show List.foldl _ 0 (A ++ B) = _
    rw [List.foldl_append]
    rfl
  rw [h, foldlDigits_eq]

theorem digitsVal_lt (r : Nat) (h1 : 1 ≤ r) :
    ∀ D : List Nat, (∀ d ∈ D, d < r) → digitsVal r D < r ^ D.length := by
  intro D
  induction D with
  | nil => intro _; simpa [digitsVal] using Nat.pos_of_ne_zero (by omega)
  | cons d bs ih =>
    intro h
    have hd : d < r := h d (List.mem_cons_self d bs)
    have hbs := ih (fun x hx => h x (List.mem_cons_of_mem d hx))
    rw [digitsVal_cons, List.length_cons]
    calc d * r ^ bs.length + digitsVal r bs
        < d * r ^ bs.length + r ^ bs.length := by omega
      _ = (d + 1) * r ^ bs.length := by ring
      _ ≤ r * r ^ bs.length := Nat.mul_le_mul_right _ (by omega)
      _ = r ^ (bs.length + 1) := by ring

theorem natDigitsF_succ (fuel r n : Nat) :
    natDigitsF (fuel + 1) r n
    = if n = 0 then [] else n % r :: natDigitsF fuel r (n / r) := rfl

theorem natDigitsF_zero (r : Nat) : ∀ fuel, natDigitsF fuel r 0 = [] := by
  intro fuel
  cases fuel with
  | zero => rfl
  | succ f => rw [natDigitsF_succ, if_pos rfl]

theorem natDigitsF_val (r : Nat) (h2 : 2 ≤ r) :
    ∀ (fuel n : Nat), n < r ^ fuel →
      digitsVal r ((natDigitsF fuel r n).reverse) = n := by
  intro fuel
  induction fuel with
  | zero =>
    intro n hn
    simp at hn
    subst hn
    rfl
  | succ f ih =>
    intro n hn
    by_cases h0 : n = 0
    · subst h0
      rw [natDigitsF_zero]
      rfl
    · rw [natDigitsF_succ, if_neg h0, List.reverse_cons, digitsVal_append]
      have hq : n / r < r ^ f := by
        rw [Nat.div_lt_iff_lt_mul (by omega)]
        calc n < r ^ (f + 1) := hn
          _ = r ^ f * r := by ring
      rw [ih (n / r) hq]
      have hd : digitsVal r [n % r] = n % r := by
        show 0 * r + n % r = n % r
        omega
      rw [hd]
      simp only [List.length_cons, List.length_nil, Nat.zero_add, pow_one]
      exact Nat.div_add_mod' n r

theorem natDigitsF_mem_lt (r : Nat) (h1 : 0 < r) :
    ∀ (fuel n : Nat), ∀ d ∈ natDigitsF fuel r n, d < r := by
  intro fuel
  induction fuel with
  | zero => intro n d hd; simp [natDigitsF] at hd
  | succ f ih =>
    intro n d hd
    rw [natDigitsF_succ] at hd
    by_cases h0 : n = 0
    · rw [if_pos h0] at hd; simp at hd
    · rw [if_neg h0] at hd
      rcases List.mem_cons.mp hd with h | h
      · subst h; exact Nat.mod_lt _ h1
      · exact ih (n / r) d h

theorem natDigitsF_length_le (r : Nat) (h2 : 2 ≤ r) :
    ∀ (fuel k n : Nat), n < r ^ k → (natDigitsF fuel r n).length ≤ k := by
  intro fuel
  induction fuel with
  | zero => intro k n _; simp [natDigitsF]
  | succ f ih =>
    intro k n hn
    by_cases h0 : n = 0
    · subst h0; rw [natDigitsF_zero]; simp
    · rw [natDigitsF_succ, if_neg h0, List.length_cons]
      cases k with
      | zero => simp at hn; omega
      | succ k' =>
        have hq : n / r < r ^ k' := by
          rw [Nat.div_lt_iff_lt_mul (by omega)]
          calc n < r ^ (k' + 1) := hn
            _ = r ^ k' * r := by ring
        have := ih k' (n / r) hq
        omega

theorem natDigitsF_fuel (r : Nat) (h2 : 2 ≤ r) :
    ∀ (f1 n : Nat), n < r ^ f1 → ∀ f2, n < r ^ f2 →
      natDigitsF f1 r n = natDigitsF f2 r n := by
  intro f1
  induction f1 with
  | zero =>
    intro n hn f2 _
    simp at hn
    subst hn
    rw [natDigitsF_zero, natDigitsF_zero]
  | succ f ih =>
    intro n hn f2 hn2
    by_cases h0 : n = 0
    · subst h0; rw [natDigitsF_zero, natDigitsF_zero]
    · cases f2 with
      | zero => simp at hn2; omega
      | succ f2' =>
        rw [natDigitsF_succ, natDigitsF_succ, if_neg h0, if_neg h0]
        have hq1 : n / r < r ^ f := by
          rw [Nat.div_lt_iff_lt_mul (by omega)]
          calc n < r ^ (f + 1) := hn
            _ = r ^ f * r := by ring
        have hq2 : n / r < r ^ f2' := by
          rw [Nat.div_lt_iff_lt_mul (by omega)]
          calc n < r ^ (f2' + 1) := hn2
            _ = r ^ f2' * r := by ring
        rw [ih (n / r) hq1 f2' hq2]

theorem natDigitsF_chunk (r : Nat) (h2 : 2 ≤ r) :
    ∀ (k fuel n : Nat), n / r ^ k ≠ 0 → n / r ^ k < r ^ fuel →
      natDigitsF (k + fuel) r n
      = (natDigitsF k r (n % r ^ k)
          ++ List.replicate (k - (natDigitsF k r (n % r ^ k)).length) 0)
        ++ natDigitsF fuel r (n / r ^ k) := by
  intro k
  induction k with
  | zero =>
    intro fuel n _ _
    simp [natDigitsF]
  | succ k' ih =>
    intro fuel n hq hqlt
    have hrpos : 0 < r := by omega
    have hn0 : n ≠ 0 := by
      intro hc
      subst hc
      simp at hq
    have hkf : k' + 1 + fuel = (k' + fuel) + 1 := by omega
    rw [hkf, natDigitsF_succ, if_neg hn0]
    have hql : (n / r) / r ^ k' = n / r ^ (k' + 1) := by
      rw [Nat.div_div_eq_div_mul, pow_succ, Nat.mul_comm (r ^ k') r]
    have hih := ih fuel (n / r) (by rw [hql]; exact hq) (by rw [hql]; exact hqlt)
    rw [hih]
    have hmod : (n / r) % r ^ k' = (n % r ^ (k' + 1)) / r := by
      rw [pow_succ, Nat.mul_comm (r ^ k') r, Nat.mod_mul_right_div_self]
    have hmr : n % r = (n % r ^ (k' + 1)) % r := by
      rw [Nat.mod_mod_of_dvd n (dvd_pow_self r (by omega))]
    set m := n % r ^ (k' + 1) with hm
    rw [hql, hmod, hmr]
    by_cases hm0 : m = 0
    · rw [hm0]
      simp only [Nat.zero_div, Nat.zero_mod, natDigitsF_zero, List.length_nil,
        List.nil_append, Nat.sub_zero]
      rw [List.replicate_succ]
      rfl
    · have hmd : m / r < r ^ k' := by
        rw [Nat.div_lt_iff_lt_mul (by omega)]
        calc m < r ^ (k' + 1) := Nat.mod_lt _ (by positivity)
          _ = r ^ k' * r := by ring
      rw [show natDigitsF (k' + 1) r m = m % r :: natDigitsF k' r (m / r) from by
        rw [natDigitsF_succ, if_neg hm0]]
      simp only [List.length_cons, List.cons_append]
      rw [Nat.succ_sub_succ]

theorem parseIntDigits_map (rt : Nat) (h36 : rt ≤ 36) :
    ∀ (D : List Nat) (acc : Nat), (∀ d ∈ D, d < rt) →
      parseIntDigits rt acc (D.map digitChar)
      = List.foldl (fun a d => a * rt + d) acc D := by
  intro D
  induction D with
  | nil => intro acc _; rfl
  | cons d ds ih =>
    intro acc h
    have hd : d < rt := h d (List.mem_cons_self d ds)
    have hd36 : d < 36 := by omega
    show parseIntDigits rt acc (digitChar d :: ds.map digitChar) = _
    rw [show parseIntDigits rt acc (digitChar d :: ds.map digitChar)
        = match charDigit (digitChar d) with
          | some dd => if dd < rt then parseIntDigits rt (acc * rt + dd) (ds.map digitChar) else acc
          | none => acc from rfl]
    rw [charDigit_digitChar d hd36]
    simp only [if_pos hd]
    exact ih (acc * rt + d) (fun x hx => h x (List.mem_cons_of_mem d hx))

theorem parseIntAbs_map (rt : Nat) (h36 : rt ≤ 36) (d : Nat) (ds : List Nat)
    (h : ∀ x ∈ d :: ds, x < rt) :
    parseIntAbs ((d :: ds).map digitChar) rt
    = .finite ((digitsVal rt (d :: ds) : Nat) : ℚ) := by
  have hd : d < rt := h d (List.mem_cons_self d ds)
  show (match charDigit (digitChar d) with
    | some dd => if dd < rt then JSNum.finite ((parseIntDigits rt dd (ds.map digitChar) : Nat) : ℚ) else .nan
    | none => .nan) = _
  rw [charDigit_digitChar d (by omega)]
  simp only [if_pos hd]
  rw [parseIntDigits_map rt h36 ds d (fun x hx => h x (List.mem_cons_of_mem d hx))]
  have hv : digitsVal rt (d :: ds) = List.foldl (fun a x => a * rt + x) d ds := by
    show List.foldl _ (0 * rt + d) ds = _
    rw [Nat.zero_mul, Nat.zero_add]
  rw [hv]

theorem parseInt_not_sign (rt : Nat) (c : Char) (cs : List Char)
    (h1 : c ≠ '-') (h2 : c ≠ '+') :
    parseInt (c :: cs) rt = parseIntAbs (c :: cs) rt := by
  unfold parseInt
  split
  · next heq =>
    injection heq with hc _
    exact absurd hc h1
  · next heq =>
    injection heq with hc _
    exact absurd hc h2
  · rfl

theorem parseInt_map (rt : Nat) (h36 : rt ≤ 36) (d : Nat) (ds : List Nat)
    (h : ∀ x ∈ d :: ds, x < rt) :
    parseInt ((d :: ds).map digitChar) rt
    = .finite ((digitsVal rt (d :: ds) : Nat) : ℚ) := by
  have hd : d < rt := h d (List.mem_cons_self d ds)
  show parseInt (digitChar d :: ds.map digitChar) rt = _
  rw [parseInt_not_sign rt (digitChar d) (ds.map digitChar)
    (digitChar_ne_minus d (by omega)) (digitChar_ne_plus d (by omega))]
  exact parseIntAbs_map rt h36 d ds h

theorem map_digitChar_not_contains (c : Char)
    (hc : ∀ d : Nat, d < 36 → digitChar d ≠ c) :
    ∀ D : List Nat, (∀ d ∈ D, d < 36) → ((D.map digitChar).contains c) = false := by
  intro D
  induction D with
  | nil => intro _; rfl
  | cons d ds ih =>
    intro h
    have hd : d < 36 := h d (List.mem_cons_self d ds)
    show ((digitChar d :: ds.map digitChar).contains c) = false
    rw [List.contains_cons]
    rw [ih (fun x hx => h x (List.mem_cons_of_mem d hx))]
    have : (c == digitChar d) = false := by
      rcases Bool.dichotomy (c == digitChar d) with hb | hb
      · exact hb
      · exact absurd (beq_iff_eq.mp hb).symm (hc d hd)
    rw [this]
    rfl

theorem natToChars_zero (r : Nat) : natToChars r 0 = ['0'] := rfl

theorem natToChars_pos (r n : Nat) (h : n ≠ 0) :
    natToChars r n = ((natDigitsF 64 r n).reverse).map digitChar := by
  unfold natToChars
  rw [if_neg h]

theorem natToChars_ne_nil (r n : Nat) (h2 : 2 ≤ r) : natToChars r n ≠ [] := by
  by_cases h : n = 0
  · subst h
    rw [natToChars_zero]
    simp
  · rw [natToChars_pos r n h]
    have : natDigitsF 64 r n = n % r :: natDigitsF 63 r (n / r) := by
      rw [show (64 : Nat) = 63 + 1 from rfl, natDigitsF_succ, if_neg h]
    rw [this]
    simp

theorem natToChars_chunk (r n : Nat) (h2 : 2 ≤ r) (hge : r ^ 6 ≤ n)
    (hlt : n < 18446744073709551616) :
    natToChars r n
    = natToChars r (n / r ^ 6)
      ++ (List.replicate (6 - (natToChars r (n % r ^ 6)).length) '0'
          ++ natToChars r (n % r ^ 6)) := by
  have h64 : (64 : Nat) ≤ r ^ 6 := by
    calc (64 : Nat) = 2 ^ 6 := by norm_num
      _ ≤ r ^ 6 := Nat.pow_le_pow_left h2 6
  have hn0 : n ≠ 0 := by omega
  have hq1 : 1 ≤ n / r ^ 6 := (Nat.one_le_div_iff (by omega)).mpr hge
  have hq0 : n / r ^ 6 ≠ 0 := by omega
  have hq58 : n / r ^ 6 < 2 ^ 58 := by
    have hd : n / r ^ 6 ≤ n / 64 := Nat.div_le_div_left h64 (by norm_num)
    have h58 : n / 64 < 2 ^ 58 := by omega
    omega
  have hq58' : n / r ^ 6 < r ^ 58 := lt_of_lt_of_le hq58 (Nat.pow_le_pow_left h2 58)
  have hq64 : n / r ^ 6 < r ^ 64 := by
    have h1 : n / r ^ 6 ≤ n := Nat.div_le_self _ _
    have h3 : (18446744073709551616 : Nat) ≤ r ^ 64 := by
      calc (18446744073709551616 : Nat) = 2 ^ 64 := by norm_num
        _ ≤ r ^ 64 := Nat.pow_le_pow_left h2 64
    omega
  have hm6 : n % r ^ 6 < r ^ 6 := Nat.mod_lt _ (by omega)
  have hm64 : n % r ^ 6 < r ^ 64 :=
    lt_of_lt_of_le hm6 (Nat.pow_le_pow_right (by omega) (by norm_num))
  have hchunk := natDigitsF_chunk r h2 6 58 n hq0 hq58'
  rw [natToChars_pos r n hn0,
    show natDigitsF 64 r n = natDigitsF (6 + 58) r n from rfl, hchunk,
    natToChars_pos r (n / r ^ 6) hq0,
    natDigitsF_fuel r h2 64 (n / r ^ 6) hq64 58 hq58']
  simp only [List.reverse_append, List.map_append, List.reverse_replicate,
    List.map_replicate]
  rw [show digitChar 0 = '0' from rfl]
  by_cases hm0 : n % r ^ 6 = 0
  · rw [hm0, natDigitsF_zero, natToChars_zero]
    simp
  · rw [natToChars_pos r (n % r ^ 6) hm0,
      natDigitsF_fuel r h2 64 (n % r ^ 6) hm64 6 hm6,
      List.length_map, List.length_reverse]

namespace Timestamp

theorem fromString_minus (R : Int) (h2 : 2 ≤ R) (h36 : R ≤ 36)
    (rest : List Char) :
    fromString ('-' :: rest) (some R) = (fromString rest (some R)).map negate := by
  simp only [fromString]
  simp only [show (if R = 0 then 10 else R) = R from if_neg (by omega)]
  have hg : (decide (R < 2) || decide (36 < R)) = false := by
    simp only [Bool.or_eq_false_iff, decide_eq_false_iff_not]
    omega
  rw [hg]
  simp only [Bool.false_eq_true, if_false]

theorem fromString_cons_not_minus (R : Int) (h2 : 2 ≤ R) (h36 : R ≤ 36)
    (c : Char) (cs : List Char) (hc : c ≠ '-') :
    fromString (c :: cs) (some R)
    = if (c :: cs).contains '-' then .error .interiorMinusSign
      else .ok (fromStringLoop R (fromNumber (.finite ((R : ℚ) ^ (8 : Nat)))) ZERO
        (c :: cs)) := by
  rw [fromString.eq_def]
  simp only [show (if R = 0 then 10 else R) = R from if_neg (by omega)]
  have hg : (decide (R < 2) || decide (36 < R)) = false := by
    simp only [Bool.or_eq_false_iff, decide_eq_false_iff_not]
    omega
  rw [hg]
  simp only [Bool.false_eq_true, if_false]
  split
  · next heq =>
    injection heq with h1 _
    exact absurd h1 hc
  · rfl

end Timestamp

namespace Timestamp

theorem fromNumber_natCast_toN (v : Nat) (h : v < 9223372036854775808) :
    (fromNumber (.finite ((v : Nat) : ℚ))).toN = v := by
  have h1 : (((v : ℤ) : ℚ)) = ((v : Nat) : ℚ) := by push_cast; ring
  have h2 := fromNumber_int (v : ℤ) (by omega) (by exact_mod_cast h)
  rw [h1] at h2
  have h3 := toN_cast_of_nonneg (t := fromNumber (.finite ((v : Nat) : ℚ)))
    (by rw [h2]; positivity)
  rw [h2] at h3
  exact_mod_cast h3

theorem fromNumber_pow_toN (radix : Int) (k : Nat) (h2 : 2 ≤ radix)
    (h36 : radix ≤ 36) (hk : k ≤ 8) :
    (fromNumber (.finite ((radix : ℚ) ^ k))).toN = radix.toNat ^ k := by
  have h1 : ((radix : ℚ)) ^ k = ((radix.toNat ^ k : ℕ) : ℚ) := by
    have hbase : ((radix.toNat : ℕ) : ℚ) = (radix : ℚ) := by
      exact_mod_cast Int.toNat_of_nonneg (by omega : (0 : ℤ) ≤ radix)
    push_cast
    rw [hbase]
  rw [h1]
  apply fromNumber_natCast_toN
  have hb : radix.toNat ≤ 36 := by omega
  calc radix.toNat ^ k ≤ 36 ^ k := Nat.pow_le_pow_left hb k
    _ ≤ 36 ^ 8 := Nat.pow_le_pow_right (by norm_num) hk
    _ < 9223372036854775808 := by norm_num

theorem add_toN_modeq (a b : Timestamp) :
    Nat.ModEq 18446744073709551616 ((a.add b).toN) (a.toN + b.toN) := by
  unfold Nat.ModEq
  rw [add_toN]
  omega

theorem multiply_toN_modeq (a b : Timestamp) :
    Nat.ModEq 18446744073709551616 ((a.multiply b).toN) (a.toN * b.toN) := by
  unfold Nat.ModEq
  rw [multiply_toN]
  omega

theorem fromStringLoop_short (radix : Int) (p acc : Timestamp) (s : List Char)
    (hne : s ≠ []) (hlen : s.length < 8) :
    fromStringLoop radix p acc s
    = (acc.multiply (fromNumber (.finite ((radix : ℚ) ^ s.length)))).add
        (fromNumber (parseInt s radix.toNat)) := by
  match s with
  | [] => exact absurd rfl hne
  | [c1] => rfl
  | [c1, c2] => rfl
  | [c1, c2, c3] => rfl
  | [c1, c2, c3, c4] => rfl
  | [c1, c2, c3, c4, c5] => rfl
  | [c1, c2, c3, c4, c5, c6] => rfl
  | [c1, c2, c3, c4, c5, c6, c7] => rfl
  | c1 :: c2 :: c3 :: c4 :: c5 :: c6 :: c7 :: c8 :: rest =>
    simp only [List.length_cons] at hlen
    omega

theorem fromStringLoop_short_toN (radix : Int) (h2 : 2 ≤ radix) (h36 : radix ≤ 36)
    (D : List Nat) (hne : D ≠ []) (hlen : D.length < 8)
    (hd : ∀ d ∈ D, d < radix.toNat) (acc : Timestamp) :
    Nat.ModEq 18446744073709551616
      ((fromStringLoop radix (fromNumber (.finite ((radix : ℚ) ^ (8 : Nat)))) acc
        (D.map digitChar)).toN)
      (acc.toN * radix.toNat ^ D.length + digitsVal radix.toNat D) := by
  have hrt : 2 ≤ radix.toNat := by omega
  have hrt36 : radix.toNat ≤ 36 := by omega
  obtain ⟨d, ds, rfl⟩ : ∃ d ds, D = d :: ds := by
    cases D with
    | nil => exact absurd rfl hne
    | cons d ds => exact ⟨d, ds, rfl⟩
  rw [fromStringLoop_short radix _ acc _ (by simp) (by rw [List.length_map]; exact hlen)]
  rw [List.length_map]
  rw [parseInt_map radix.toNat hrt36 d ds hd]
  have hdv : digitsVal radix.toNat (d :: ds) < 9223372036854775808 := by
    have hlt := digitsVal_lt radix.toNat (by omega) (d :: ds) hd
    have hub : radix.toNat ^ (d :: ds).length ≤ 36 ^ 7 := by
      calc radix.toNat ^ (d :: ds).length ≤ 36 ^ (d :: ds).length :=
            Nat.pow_le_pow_left hrt36 _
        _ ≤ 36 ^ 7 := Nat.pow_le_pow_right (by norm_num) (by omega)
    calc digitsVal radix.toNat (d :: ds) < radix.toNat ^ (d :: ds).length := hlt
      _ ≤ 36 ^ 7 := hub
      _ < 9223372036854775808 := by norm_num
  unfold Nat.ModEq
  rw [add_toN, multiply_toN, fromNumber_natCast_toN _ hdv,
    fromNumber_pow_toN radix (d :: ds).length h2 h36 (by omega)]
  omega

end Timestamp

namespace Timestamp

theorem fromStringLoop_nil (radix : Int) (p acc : Timestamp) :
    fromStringLoop radix p acc [] = acc := rfl

theorem fromStringLoop_cons8 (radix : Int) (p acc : Timestamp)
    (c1 c2 c3 c4 c5 c6 c7 c8 : Char) (rest : List Char) :
    fromStringLoop radix p acc (c1 :: c2 :: c3 :: c4 :: c5 :: c6 :: c7 :: c8 :: rest)
    = fromStringLoop radix p
        ((acc.multiply p).add
          (fromNumber (parseInt [c1, c2, c3, c4, c5, c6, c7, c8] radix.toNat))) rest
  := rfl

theorem fromStringLoop_toN (radix : Int) (h2 : 2 ≤ radix) (h36 : radix ≤ 36) :
    ∀ (bound : Nat) (D : List Nat), D.length ≤ bound →
      (∀ d ∈ D, d < radix.toNat) → ∀ acc : Timestamp,
      Nat.ModEq 18446744073709551616
        ((fromStringLoop radix (fromNumber (.finite ((radix : ℚ) ^ (8 : Nat)))) acc
          (D.map digitChar)).toN)
        (acc.toN * radix.toNat ^ D.length + digitsVal radix.toNat D) := by
  intro bound
  induction bound with
  | zero =>
    intro D hlen _ acc
    have hD : D = [] := List.eq_nil_of_length_eq_zero (by omega)
    subst hD
    show Nat.ModEq _ ((fromStringLoop _ _ acc []).toN) _
    rw [fromStringLoop_nil]
    simp only [List.length_nil, pow_zero, Nat.mul_one, digitsVal_nil, Nat.add_zero]
    exact Nat.ModEq.refl _
  | succ b ih =>
    intro D hlen hd acc
    have hrt : 2 ≤ radix.toNat := by omega
    have hrt36 : radix.toNat ≤ 36 := by omega
    rcases D with _ | ⟨d1, D⟩
    · show Nat.ModEq _ ((fromStringLoop _ _ acc []).toN) _
      rw [fromStringLoop_nil]
      simp only [List.length_nil, pow_zero, Nat.mul_one, digitsVal_nil, Nat.add_zero]
      exact Nat.ModEq.refl _
    rcases D with _ | ⟨d2, D⟩
    · exact fromStringLoop_short_toN radix h2 h36 [d1] (by simp) (by simp) hd acc
    rcases D with _ | ⟨d3, D⟩
    · exact fromStringLoop_short_toN radix h2 h36 [d1, d2] (by simp) (by simp) hd acc
    rcases D with _ | ⟨d4, D⟩
    · exact fromStringLoop_short_toN radix h2 h36 [d1, d2, d3] (by simp) (by simp)
        hd acc
    rcases D with _ | ⟨d5, D⟩
    · exact fromStringLoop_short_toN radix h2 h36 [d1, d2, d3, d4] (by simp)
        (by simp) hd acc
    rcases D with _ | ⟨d6, D⟩
    · exact fromStringLoop_short_toN radix h2 h36 [d1, d2, d3, d4, d5] (by simp)
        (by simp) hd acc
    rcases D with _ | ⟨d7, D⟩
    · exact fromStringLoop_short_toN radix h2 h36 [d1, d2, d3, d4, d5, d6] (by simp)
        (by simp) hd acc
    rcases D with _ | ⟨d8, rest⟩
    · exact fromStringLoop_short_toN radix h2 h36 [d1, d2, d3, d4, d5, d6, d7]
        (by simp) (by simp) hd acc
    -- a full chunk of eight digits
    have hchunk8 : ∀ x ∈ [d1, d2, d3, d4, d5, d6, d7, d8], x < radix.toNat := by
      intro x hx
      apply hd
      simp only [List.mem_cons] at hx ⊢
      tauto
    have hrest : ∀ x ∈ rest, x < radix.toNat := by
      intro x hx
      apply hd
      simp only [List.mem_cons]
      tauto
    have hmap : (d1 :: d2 :: d3 :: d4 :: d5 :: d6 :: d7 :: d8 :: rest).map digitChar
        = digitChar d1 :: digitChar d2 :: digitChar d3 :: digitChar d4 ::
          digitChar d5 :: digitChar d6 :: digitChar d7 :: digitChar d8 ::
          rest.map digitChar := rfl
    rw [hmap, fromStringLoop_cons8]
    have hpi : parseInt [digitChar d1, digitChar d2, digitChar d3, digitChar d4,
        digitChar d5, digitChar d6, digitChar d7, digitChar d8] radix.toNat
        = .finite ((digitsVal radix.toNat [d1, d2, d3, d4, d5, d6, d7, d8] : ℕ) : ℚ) := by
      rw [show [digitChar d1, digitChar d2, digitChar d3, digitChar d4, digitChar d5,
        digitChar d6, digitChar d7, digitChar d8]
        = ([d1, d2, d3, d4, d5, d6, d7, d8] : List Nat).map digitChar from rfl]
      exact parseInt_map radix.toNat hrt36 d1 _ hchunk8
    rw [hpi]
    have hC : digitsVal radix.toNat [d1, d2, d3, d4, d5, d6, d7, d8]
        < 9223372036854775808 := by
      have hlt := digitsVal_lt radix.toNat (by omega) _ hchunk8
      calc digitsVal radix.toNat [d1, d2, d3, d4, d5, d6, d7, d8]
          < radix.toNat ^ (8 : Nat) := hlt
        _ ≤ 36 ^ (8 : Nat) := Nat.pow_le_pow_left hrt36 _
        _ < 9223372036854775808 := by norm_num
    have hlen' : rest.length ≤ b := by
      simp only [List.length_cons] at hlen
      omega
    have hih := ih rest hlen' hrest
      ((acc.multiply (fromNumber (.finite ((radix : ℚ) ^ (8 : Nat))))).add
        (fromNumber (.finite ((digitsVal radix.toNat [d1, d2, d3, d4, d5, d6, d7, d8] : ℕ) : ℚ))))
    refine hih.trans ?_
    -- replace the accumulator's pattern by its congruent value
    have hacc : Nat.ModEq 18446744073709551616
        (((acc.multiply (fromNumber (.finite ((radix : ℚ) ^ (8 : Nat))))).add
          (fromNumber (.finite ((digitsVal radix.toNat [d1, d2, d3, d4, d5, d6, d7, d8] : ℕ) : ℚ)))).toN)
        (acc.toN * radix.toNat ^ (8 : Nat)
          + digitsVal radix.toNat [d1, d2, d3, d4, d5, d6, d7, d8]) := by
      refine (add_toN_modeq _ _).trans ?_
      rw [fromNumber_natCast_toN _ hC]
      exact ((multiply_toN_modeq acc _).trans
        (by rw [fromNumber_pow_toN radix 8 h2 h36 (by norm_num)])).add_right _
    refine ((hacc.mul_right _).add_right _).trans ?_
    have hsplit : digitsVal radix.toNat (d1 :: d2 :: d3 :: d4 :: d5 :: d6 :: d7 :: d8 :: rest)
        = digitsVal radix.toNat [d1, d2, d3, d4, d5, d6, d7, d8]
          * radix.toNat ^ rest.length + digitsVal radix.toNat rest := by
      rw [show (d1 :: d2 :: d3 :: d4 :: d5 :: d6 :: d7 :: d8 :: rest)
        = [d1, d2, d3, d4, d5, d6, d7, d8] ++ rest from rfl]
      exact digitsVal_append _ _ _
    rw [hsplit]
    have hlen8 : (d1 :: d2 :: d3 :: d4 :: d5 :: d6 :: d7 :: d8 :: rest).length
        = 8 + rest.length := by
      simp only [List.length_cons]
      omega
    rw [hlen8, pow_add]
    ring_nf
    rfl

end Timestamp

namespace Timestamp

theorem fromString_digits (radix : Int) (h2 : 2 ≤ radix) (h36 : radix ≤ 36)
    (D : List Nat) (hne : D ≠ []) (hd : ∀ d ∈ D, d < radix.toNat) :
    ∃ t : Timestamp, fromString (D.map digitChar) (some radix) = .ok t ∧
      t.toN = digitsVal radix.toNat D % 18446744073709551616 := by
  have hrt36 : radix.toNat ≤ 36 := by omega
  obtain ⟨d, ds, rfl⟩ : ∃ d ds, D = d :: ds := by
    cases D with
    | nil => exact absurd rfl hne
    | cons d ds => exact ⟨d, ds, rfl⟩
  have hd36 : d < 36 := by
    have := hd d (List.mem_cons_self d ds)
    omega
  show ∃ t, fromString (digitChar d :: ds.map digitChar) (some radix) = .ok t ∧ _
  rw [fromString_cons_not_minus radix h2 h36 (digitChar d) _
    (digitChar_ne_minus d hd36)]
  have hcon : ((digitChar d :: ds.map digitChar).contains '-') = false := by
    rw [show digitChar d :: ds.map digitChar = ((d :: ds).map digitChar) from rfl]
    exact map_digitChar_not_contains '-' digitChar_ne_minus (d :: ds)
      (fun x hx => by have := hd x hx; omega)
  rw [hcon]
  simp only [Bool.false_eq_true, if_false]
  refine ⟨_, rfl, ?_⟩
  have h := fromStringLoop_toN radix h2 h36 (d :: ds).length (d :: ds) le_rfl hd ZERO
  rw [toN_ZERO] at h
  unfold Nat.ModEq at h
  have hlt := (fromStringLoop radix (fromNumber (.finite ((radix : ℚ) ^ (8 : Nat))))
    ZERO ((d :: ds).map digitChar)).toN_lt
  show (fromStringLoop radix (fromNumber (.finite ((radix : ℚ) ^ (8 : Nat))))
    ZERO (digitChar d :: ds.map digitChar)).toN = _
  rw [show digitChar d :: ds.map digitChar = ((d :: ds).map digitChar) from rfl]
  omega

theorem fromString_natToChars (radix : Int) (h2 : 2 ≤ radix) (h36 : radix ≤ 36)
    (n : Nat) (hn : n < 18446744073709551616) :
    ∃ t : Timestamp, fromString (natToChars radix.toNat n) (some radix) = .ok t ∧
      t.toN = n := by
  have hrt : 2 ≤ radix.toNat := by omega
  by_cases h0 : n = 0
  · subst h0
    rw [natToChars_zero, show (['0'] : List Char) = ([0] : List Nat).map digitChar
      from rfl]
    obtain ⟨t, ht, htv⟩ := fromString_digits radix h2 h36 [0] (by simp)
      (by intro x hx; simp at hx; omega)
    exact ⟨t, ht, by rw [htv, digitsVal_cons, digitsVal_nil]; simp⟩
  · rw [natToChars_pos radix.toNat n h0]
    have hlt64 : n < radix.toNat ^ 64 := by
      calc n < 18446744073709551616 := hn
        _ = 2 ^ 64 := by norm_num
        _ ≤ radix.toNat ^ 64 := Nat.pow_le_pow_left hrt 64
    have hne : (natDigitsF 64 radix.toNat n).reverse ≠ [] := by
      rw [show (64 : Nat) = 63 + 1 from rfl, natDigitsF_succ, if_neg h0]
      simp
    obtain ⟨t, ht, htv⟩ := fromString_digits radix h2 h36
      ((natDigitsF 64 radix.toNat n).reverse) hne
      (fun x hx => natDigitsF_mem_lt radix.toNat (by omega) 64 n x
        (List.mem_reverse.mp hx))
    refine ⟨t, ht, ?_⟩
    rw [htv, natDigitsF_val radix.toNat hrt 64 n hlt64, Nat.mod_eq_of_lt hn]

theorem fromString_neg_natToChars (radix : Int) (h2 : 2 ≤ radix) (h36 : radix ≤ 36)
    (m : Nat) (hm1 : 1 ≤ m) (hm : m ≤ 9223372036854775808) :
    ∃ t : Timestamp, fromString ('-' :: natToChars radix.toNat m) (some radix)
      = .ok t ∧ t.toN = 18446744073709551616 - m := by
  rw [fromString_minus radix h2 h36]
  obtain ⟨t, ht, htv⟩ := fromString_natToChars radix h2 h36 m (by omega)
  rw [ht]
  refine ⟨t.negate, rfl, ?_⟩
  rw [negate_toN, htv]
  omega

end Timestamp

namespace Timestamp

theorem toStringLoopF_succ (radix : Int) (p : Timestamp) (fuel : Nat)
    (rem : Timestamp) (result : List Char) :
    toStringLoopF radix p (fuel + 1) rem result
    = match divF 16 rem p with
      | none => none
      | some (.error e) => some (.error e)
      | some (.ok remDiv) =>
        if remDiv.isZero then
          some (.ok (jsIntToString ((rem.subtract (remDiv.multiply p)).toInt)
            radix.toNat ++ result))
        else
          toStringLoopF radix p fuel remDiv
            (List.replicate
              (6 - (jsIntToString ((rem.subtract (remDiv.multiply p)).toInt)
                radix.toNat).length) '0'
              ++ jsIntToString ((rem.subtract (remDiv.multiply p)).toInt)
                radix.toNat ++ result) := rfl

theorem toStringF_in_range (fuel : Nat) (t : Timestamp) (radix : Int)
    (h2 : 2 ≤ radix) (h36 : radix ≤ 36) :
    toStringF (fuel + 1) t (some radix)
    = if t.isZero then some (.ok ['0'])
      else if t.isNegative then
        if t.equals MIN_VALUE then
          match divF 16 t (fromNumber (.finite (radix : ℚ))) with
          | none => none
          | some (.error e) => some (.error e)
          | some (.ok d) =>
            match toStringF fuel d (some radix) with
            | none => none
            | some (.error e) => some (.error e)
            | some (.ok s) =>
              some (.ok (s ++ jsIntToString
                ((d.multiply (fromNumber (.finite (radix : ℚ)))).subtract t).toInt
                radix.toNat))
        else
          match toStringF fuel t.negate (some radix) with
          | none => none
          | some (.error e) => some (.error e)
          | some (.ok s) => some (.ok ('-' :: s))
      else
        toStringLoopF radix (fromNumber (.finite ((radix : ℚ) ^ (6 : Nat))))
          (fuel + 1) t [] := by
  simp only [toStringF]
  simp only [show (if radix = 0 then (10 : Int) else radix) = radix from
    if_neg (by omega)]
  have hg : (decide (radix < 2) || decide (36 < radix)) = false := by
    simp only [Bool.or_eq_false_iff, decide_eq_false_iff_not]
    omega
  rw [hg]
  simp only [Bool.false_eq_true, if_false]

theorem toInt_small {t : Timestamp} (h0 : 0 ≤ t.toNumber)
    (hlt : t.toNumber < 2147483648) : t.toInt = t.toNumber := by
  have h1 := t.lowU_lt
  have h2 := t.highU_lt
  unfold toNumber sgn32 at h0 hlt
  unfold toInt toNumber sgn32
  split_ifs at h0 hlt ⊢ <;> omega

end Timestamp

namespace Timestamp

theorem fromNumber_pow6_toNumber (radix : Int) (h2 : 2 ≤ radix) (h36 : radix ≤ 36) :
    (fromNumber (.finite ((radix : ℚ) ^ (6 : Nat)))).toNumber = radix ^ (6 : Nat) := by
  have hcast : ((radix : ℚ)) ^ (6 : Nat) = (((radix ^ (6 : Nat) : ℤ)) : ℚ) := by
    push_cast
    ring
  rw [hcast]
  apply fromNumber_int
  · have : (0 : ℤ) ≤ radix ^ (6 : Nat) := by positivity
    omega
  · calc radix ^ (6 : Nat) ≤ 36 ^ (6 : Nat) :=
        pow_le_pow_left (by omega) (by omega) 6
      _ < 9223372036854775808 := by norm_num

theorem toStringLoopF_spec (radix : Int) (h2 : 2 ≤ radix) (h35 : radix ≤ 35) :
    ∀ (fuel : Nat) (rem : Timestamp) (result : List Char),
      0 ≤ rem.toNumber →
      rem.toNumber < (radix ^ (6 : Nat)) ^ (fuel + 1) →
      toStringLoopF radix (fromNumber (.finite ((radix : ℚ) ^ (6 : Nat)))) (fuel + 1)
        rem result
      = some (.ok (natToChars radix.toNat rem.toNumber.toNat ++ result)) := by
  have hP6 := fromNumber_pow6_toNumber radix h2 (by omega)
  have hr6pos : (0 : ℤ) < radix ^ (6 : Nat) := by positivity
  have hr6ub : radix ^ (6 : Nat) ≤ 1838265625 := by
    calc radix ^ (6 : Nat) ≤ 35 ^ (6 : Nat) := pow_le_pow_left (by omega) (by omega) 6
      _ = 1838265625 := by norm_num
  have hr6cast : ((radix.toNat ^ (6 : Nat) : ℕ) : ℤ) = radix ^ (6 : Nat) := by
    push_cast [Int.toNat_of_nonneg (by omega : (0 : ℤ) ≤ radix)]
    rfl
  have hrt2 : 2 ≤ radix.toNat := by omega
  intro fuel
  induction fuel with
  | zero =>
    intro rem result h0 hub
    rw [pow_one] at hub
    obtain ⟨q, hq, hqv⟩ := divF_pos 14 rem
      (fromNumber (.finite ((radix : ℚ) ^ (6 : Nat)))) h0 (by omega)
    rw [toStringLoopF_succ, show divF 16 rem
      (fromNumber (.finite ((radix : ℚ) ^ (6 : Nat)))) = some (.ok q) from hq]
    simp only
    have hq0 : q.toNumber = 0 := by
      rw [hqv, hP6]
      exact Int.ediv_eq_zero_of_lt h0 hub
    rw [isZero_toNumber.mpr hq0]
    simp only [if_true]
    have hsub : (rem.subtract (q.multiply
        (fromNumber (.finite ((radix : ℚ) ^ (6 : Nat)))))).toNumber
        = rem.toNumber := by
      rw [subtract_toNumber, multiply_toNumber, hq0, hP6]
      rw [show (0 : ℤ) * radix ^ (6 : Nat) = 0 by ring]
      rw [show wrap64 0 = 0 from rfl]
      rw [show rem.toNumber - 0 = rem.toNumber by ring]
      exact wrap64_eq_self (by omega) (lt_of_lt_of_le hub (by omega))
    rw [toInt_small (by rw [hsub]; omega) (by rw [hsub]; omega), hsub]
    unfold jsIntToString
    rw [if_neg (not_lt.mpr h0)]
  | succ f ih =>
    intro rem result h0 hub
    obtain ⟨q, hq, hqv⟩ := divF_pos 14 rem
      (fromNumber (.finite ((radix : ℚ) ^ (6 : Nat)))) h0 (by omega)
    rw [toStringLoopF_succ, show divF 16 rem
      (fromNumber (.finite ((radix : ℚ) ^ (6 : Nat)))) = some (.ok q) from hq]
    simp only
    rw [hP6] at hqv
    have hmodadd := Int.emod_add_ediv rem.toNumber (radix ^ (6 : Nat))
    have hmodnn := Int.emod_nonneg rem.toNumber (by omega : radix ^ (6 : Nat) ≠ 0)
    have hmodlt := Int.emod_lt_of_pos rem.toNumber hr6pos
    have hremub := rem.toNumber_ub
    have hsub : (rem.subtract (q.multiply
        (fromNumber (.finite ((radix : ℚ) ^ (6 : Nat)))))).toNumber
        = rem.toNumber % radix ^ (6 : Nat) := by
      rw [subtract_toNumber, multiply_toNumber, hqv, hP6, mul_comm]
      rw [show wrap64 (radix ^ (6 : Nat) * (rem.toNumber / radix ^ (6 : Nat)))
          = radix ^ (6 : Nat) * (rem.toNumber / radix ^ (6 : Nat)) from
        wrap64_eq_self (by omega) (by omega)]
      rw [show rem.toNumber - radix ^ (6 : Nat) * (rem.toNumber / radix ^ (6 : Nat))
          = rem.toNumber % radix ^ (6 : Nat) by omega]
      exact wrap64_eq_self (by omega) (by omega)
    rw [toInt_small (by rw [hsub]; omega) (by rw [hsub]; omega), hsub]
    have hjs : jsIntToString (rem.toNumber % radix ^ (6 : Nat)) radix.toNat
        = natToChars radix.toNat (rem.toNumber % radix ^ (6 : Nat)).toNat := by
      unfold jsIntToString
      rw [if_neg (not_lt.mpr hmodnn)]
    by_cases hsmall : rem.toNumber < radix ^ (6 : Nat)
    · have hq0 : q.toNumber = 0 := by
        rw [hqv]
        exact Int.ediv_eq_zero_of_lt h0 hsmall
      rw [isZero_toNumber.mpr hq0]
      simp only [if_true]
      rw [hjs, Int.emod_eq_of_lt h0 hsmall]
    · have hq1 : 1 ≤ q.toNumber := by
        rw [hqv]
        rw [Int.le_ediv_iff_mul_le hr6pos]
        omega
      have hqz : q.isZero = false := isZero_false_of_toNumber_ne (by omega)
      rw [hqz]
      simp only [Bool.false_eq_true, if_false]
      have hqub : q.toNumber < (radix ^ (6 : Nat)) ^ (f + 1) := by
        rw [hqv, Int.ediv_lt_iff_lt_mul hr6pos]
        calc rem.toNumber < (radix ^ (6 : Nat)) ^ (f + 1 + 1) := hub
          _ = (radix ^ (6 : Nat)) ^ (f + 1) * radix ^ (6 : Nat) := by ring
      rw [hjs]
      rw [ih q (List.replicate
          (6 - (natToChars radix.toNat
            (rem.toNumber % radix ^ (6 : Nat)).toNat).length) '0'
          ++ natToChars radix.toNat (rem.toNumber % radix ^ (6 : Nat)).toNat
          ++ result) (by omega) hqub]
      -- bridge the integer division to the natural one and split the chunk
      have hvN : rem.toNumber.toNat < 18446744073709551616 := by omega
      have hge : radix.toNat ^ (6 : Nat) ≤ rem.toNumber.toNat := by omega
      have hq0' : (0 : ℤ) ≤ q.toNumber := by omega
      have hqcast : ((q.toNumber.toNat : ℕ) : ℤ) = q.toNumber :=
        Int.toNat_of_nonneg hq0'
      have hmulcast : ((radix.toNat ^ (6 : Nat) * q.toNumber.toNat : ℕ) : ℤ)
          = radix ^ (6 : Nat) * (rem.toNumber / radix ^ (6 : Nat)) := by
        push_cast
        rw [show ((radix.toNat : ℕ) : ℤ) = radix from
          Int.toNat_of_nonneg (by omega), hqcast, hqv]
      have hbpos : 0 < radix.toNat ^ (6 : Nat) := by omega
      have hdm : (rem.toNumber % radix ^ (6 : Nat)).toNat
          + radix.toNat ^ (6 : Nat) * q.toNumber.toNat = rem.toNumber.toNat := by
        omega
      have hcl : (rem.toNumber % radix ^ (6 : Nat)).toNat
          < radix.toNat ^ (6 : Nat) := by omega
      obtain ⟨hdivN, hmodN⟩ := (Nat.div_mod_unique hbpos).mpr ⟨hdm, hcl⟩
      rw [natToChars_chunk radix.toNat rem.toNumber.toNat hrt2 hge hvN,
        hdivN, hmodN]
      simp only [List.append_assoc]

end Timestamp

namespace Timestamp

theorem toStringF_pos (radix : Int) (h2 : 2 ≤ radix) (h35 : radix ≤ 35)
    (fuel : Nat) (hfuel : 10 ≤ fuel) (t : Timestamp) (h0 : 0 ≤ t.toNumber) :
    toStringF (fuel + 1) t (some radix)
    = some (.ok (natToChars radix.toNat t.toNumber.toNat)) := by
  rw [toStringF_in_range fuel t radix h2 (by omega)]
  by_cases hz : t.isZero = true
  · rw [hz]
    simp only [if_true]
    rw [isZero_toNumber.mp hz]
    rfl
  · rw [Bool.eq_false_iff.mpr hz, toNumber_nonneg_iff.mpr h0]
    simp only [Bool.false_eq_true, if_false]
    have hub' : t.toNumber < (radix ^ (6 : Nat)) ^ (fuel + 1) := by
      calc t.toNumber < 9223372036854775808 := t.toNumber_ub
        _ < ((2 : ℤ) ^ (6 : Nat)) ^ (11 : Nat) := by norm_num
        _ ≤ ((2 : ℤ) ^ (6 : Nat)) ^ (fuel + 1) :=
          pow_le_pow_right (by norm_num) (by omega)
        _ ≤ (radix ^ (6 : Nat)) ^ (fuel + 1) :=
          pow_le_pow_left (by norm_num) (pow_le_pow_left (by norm_num) h2 6) _
    rw [toStringLoopF_spec radix h2 h35 fuel t [] h0 hub', List.append_nil]

theorem natToChars_single (r d : Nat) (hd : d < r) :
    natToChars r d = [digitChar d] := by
  by_cases h0 : d = 0
  · subst h0
    rfl
  · rw [natToChars_pos r d h0,
      show (64 : Nat) = 63 + 1 from rfl, natDigitsF_succ, if_neg h0,
      Nat.mod_eq_of_lt hd, Nat.div_eq_of_lt hd, natDigitsF_zero]
    rfl

theorem natToChars_split_last (r n : Nat) (h2 : 2 ≤ r) (hge : r ≤ n)
    (hlt : n < 18446744073709551616) :
    natToChars r n = natToChars r (n / r) ++ [digitChar (n % r)] := by
  have hn0 : n ≠ 0 := by omega
  have hq1 : 1 ≤ n / r := (Nat.one_le_div_iff (by omega)).mpr hge
  have hq0 : n / r ≠ 0 := by omega
  have h64 : n < r ^ 64 := by
    calc n < 18446744073709551616 := hlt
      _ = 2 ^ 64 := by norm_num
      _ ≤ r ^ 64 := Nat.pow_le_pow_left h2 64
  have hq63 : n / r < r ^ 63 := by
    rw [Nat.div_lt_iff_lt_mul (by omega)]
    calc n < r ^ 64 := h64
      _ = r ^ 63 * r := by ring
  have hq64' : n / r < r ^ 64 :=
    lt_of_lt_of_le hq63 (Nat.pow_le_pow_right (by omega) (by norm_num))
  rw [natToChars_pos r n hn0, show (64 : Nat) = 63 + 1 from rfl, natDigitsF_succ,
    if_neg hn0, List.reverse_cons, List.map_append,
    natToChars_pos r (n / r) hq0,
    natDigitsF_fuel r h2 64 (n / r) hq64' 63 hq63]
  rfl

theorem toStringF_ok (radix : Int) (h2 : 2 ≤ radix) (h35 : radix ≤ 35)
    (t : Timestamp) :
    toStringF 32 t (some radix)
    = some (.ok (jsIntToString t.toNumber radix.toNat)) := by
  have hlb := t.toNumber_lb
  have hub := t.toNumber_ub
  have hrt2 : 2 ≤ radix.toNat := by omega
  by_cases h0 : 0 ≤ t.toNumber
  · rw [show (32 : Nat) = 31 + 1 from rfl,
      toStringF_pos radix h2 h35 31 (by norm_num) t h0]
    unfold jsIntToString
    rw [if_neg (not_lt.mpr h0)]
  · push_neg at h0
    by_cases hmin : t = MIN_VALUE
    · subst hmin
      rw [show (32 : Nat) = 31 + 1 from rfl,
        toStringF_in_range 31 MIN_VALUE radix h2 (by omega),
        show MIN_VALUE.isZero = false by decide,
        show MIN_VALUE.isNegative = true by decide,
        show MIN_VALUE.equals MIN_VALUE = true by decide]
      simp only [Bool.false_eq_true, if_false, if_true]
      have hRv : (fromNumber (.finite (radix : ℚ))).toNumber = radix :=
        fromNumber_int radix (by omega) (by omega)
      have hRz : (fromNumber (.finite (radix : ℚ))).isZero = false :=
        isZero_false_of_toNumber_ne (by omega)
      obtain ⟨d, hd, hdv⟩ :=
        divF_spec 12 MIN_VALUE (fromNumber (.finite (radix : ℚ))) hRz
      rw [show divF 16 MIN_VALUE (fromNumber (.finite (radix : ℚ)))
        = some (.ok d) from hd]
      simp only
      rw [toNumber_MIN_VALUE, hRv] at hdv
      have hdval : d.toNumber = -(9223372036854775808 / radix) := by
        rw [hdv]
        unfold i64div
        rw [if_neg (fun hc => absurd hc.2 (by omega))]
        rw [tdiv_neg_pos (by norm_num) (by omega)]
        norm_num
      have hqpos : 1 ≤ 9223372036854775808 / radix := by
        rw [Int.le_ediv_iff_mul_le (by omega)]
        omega
      have hqmul : 9223372036854775808 / radix * radix ≤ 9223372036854775808 :=
        Int.ediv_mul_le _ (by omega)
      have hqmul2 : 9223372036854775808 / radix * 2
          ≤ 9223372036854775808 / radix * radix :=
        mul_le_mul_of_nonneg_left h2 (by omega)
      have hdmin : d ≠ MIN_VALUE := toNumber_ne_min_iff.mpr (by omega)
      have hdneg : d.toNumber < 0 := by omega
      rw [show (31 : Nat) = 30 + 1 from rfl,
        toStringF_in_range 30 d radix h2 (by omega),
        isZero_false_of_toNumber_ne (by omega),
        isNegative_toNumber.mpr hdneg, equals_eq_false_iff.mpr hdmin]
      simp only [Bool.false_eq_true, if_false, if_true]
      have hdn : d.negate.toNumber = -d.toNumber := negate_toNumber_of_ne_min hdmin
      rw [show (30 : Nat) = 29 + 1 from rfl,
        toStringF_pos radix h2 h35 29 (by norm_num) d.negate (by omega)]
      simp only
      have hmodnn := Int.emod_nonneg 9223372036854775808
        (by omega : radix ≠ 0)
      have hmodlt := Int.emod_lt_of_pos 9223372036854775808
        (by omega : (0 : ℤ) < radix)
      have hea := Int.emod_add_ediv 9223372036854775808 radix
      have hprod : (d.multiply (fromNumber (.finite (radix : ℚ)))).toNumber
          = -(9223372036854775808 / radix * radix) := by
        rw [multiply_toNumber, hRv, hdval,
          show -(9223372036854775808 / radix) * radix
            = -(9223372036854775808 / radix * radix) by ring]
        refine wrap64_eq_self ?_ ?_ <;> omega
      have hrem : ((d.multiply (fromNumber (.finite (radix : ℚ)))).subtract
          MIN_VALUE).toNumber = 9223372036854775808 % radix := by
        rw [subtract_toNumber, hprod, toNumber_MIN_VALUE,
          show -(9223372036854775808 / radix * radix) - (-9223372036854775808)
            = 9223372036854775808 - 9223372036854775808 / radix * radix by ring,
          show (9223372036854775808 : ℤ) - 9223372036854775808 / radix * radix
            = 9223372036854775808 % radix from by rw [mul_comm]; omega]
        refine wrap64_eq_self ?_ ?_ <;> omega
      rw [toInt_small (by rw [hrem]; omega) (by rw [hrem]; omega), hrem,
        toNumber_MIN_VALUE]
      unfold jsIntToString
      rw [if_neg (not_lt.mpr hmodnn), if_pos (by norm_num : (-9223372036854775808 : ℤ) < 0)]
      rw [natToChars_single radix.toNat (9223372036854775808 % radix).toNat
        (by omega)]
      rw [hdn, hdval, neg_neg,
        show ((-(-9223372036854775808 : ℤ))).toNat = 9223372036854775808 by decide]
      -- split the bottom digit off the canonical form of 2^63
      have hgeN : radix.toNat ≤ 9223372036854775808 := by omega
      rw [natToChars_split_last radix.toNat 9223372036854775808 hrt2 hgeN
        (by norm_num)]
      have hQcast : ((9223372036854775808 / radix).toNat : ℤ)
          = 9223372036854775808 / radix := Int.toNat_of_nonneg (by omega)
      have hmulcast : ((radix.toNat * (9223372036854775808 / radix).toNat : ℕ) : ℤ)
          = radix * (9223372036854775808 / radix) := by
        push_cast
        rw [show ((radix.toNat : ℕ) : ℤ) = radix from Int.toNat_of_nonneg (by omega),
          hQcast]
      have hdm : (9223372036854775808 % radix).toNat
          + radix.toNat * (9223372036854775808 / radix).toNat
          = 9223372036854775808 := by omega
      have hcl : (9223372036854775808 % radix).toNat < radix.toNat := by omega
      obtain ⟨hdivN, hmodN⟩ :=
        (Nat.div_mod_unique (show 0 < radix.toNat by omega)).mpr ⟨hdm, hcl⟩
      rw [hdivN, hmodN]
      simp only [List.cons_append]
    · rw [show (32 : Nat) = 31 + 1 from rfl,
        toStringF_in_range 31 t radix h2 (by omega),
        isZero_false_of_toNumber_ne (by omega),
        isNegative_toNumber.mpr h0, equals_eq_false_iff.mpr hmin]
      simp only [Bool.false_eq_true, if_false, if_true]
      have hneg : t.negate.toNumber = -t.toNumber := negate_toNumber_of_ne_min hmin
      have htmin := toNumber_ne_min_iff.mp hmin
      rw [show (31 : Nat) = 30 + 1 from rfl,
        toStringF_pos radix h2 h35 30 (by norm_num) t.negate (by omega)]
      simp only
      rw [hneg]
      unfold jsIntToString
      rw [if_pos h0]

end Timestamp

namespace Timestamp

theorem stringRoundTrip (radix : Int) (h2 : 2 ≤ radix) (h35 : radix ≤ 35)
    (x : Timestamp) :
    ∃ (s : List Char) (y : Timestamp),
      toStringF 32 x (some radix) = some (.ok s) ∧
      fromString s (some radix) = .ok y ∧ y.equals x = true := by
  rw [toStringF_ok radix h2 h35 x]
  have hlb := x.toNumber_lb
  have hub := x.toNumber_ub
  by_cases h0 : 0 ≤ x.toNumber
  · have hjs : jsIntToString x.toNumber radix.toNat
        = natToChars radix.toNat x.toNumber.toNat := by
      unfold jsIntToString
      rw [if_neg (not_lt.mpr h0)]
    obtain ⟨y, hy, hyv⟩ := fromString_natToChars radix h2 (by omega)
      x.toNumber.toNat (by omega)
    refine ⟨_, y, rfl, by rw [hjs]; exact hy, ?_⟩
    apply equals_iff.mpr
    apply toN_inj
    rw [hyv]
    have hc := toN_cast_of_nonneg h0
    omega
  · push_neg at h0
    have hjs : jsIntToString x.toNumber radix.toNat
        = '-' :: natToChars radix.toNat (-x.toNumber).toNat := by
      unfold jsIntToString
      rw [if_pos h0]
    obtain ⟨y, hy, hyv⟩ := fromString_neg_natToChars radix h2 (by omega)
      (-x.toNumber).toNat (by omega) (by omega)
    refine ⟨_, y, rfl, by rw [hjs]; exact hy, ?_⟩
    apply equals_iff.mpr
    apply toN_inj
    rw [hyv]
    have hm := x.toNumber_modeq
    have hl := x.toN_lt
    unfold Int.ModEq at hm
    omega

end Timestamp

namespace Timestamp

theorem toInt_mid {t : Timestamp} (h1 : 2147483648 ≤ t.toNumber)
    (h2 : t.toNumber < 4294967296) : t.toInt = t.toNumber - 4294967296 := by
  have hl := t.lowU_lt
  have hh := t.highU_lt
  unfold toNumber sgn32 at h1 h2
  unfold toInt toNumber sgn32
  split_ifs at h1 h2 ⊢ <;> omega

theorem radix36_toString_bug :
    toStringF 32 (ofBits 2147483648 0) (some 36)
      = some (.ok ['-', 'z', 'i', 'k', '0', 'z', 'k']) := by
  have hx : (ofBits 2147483648 0).toNumber = 2147483648 := by decide
  rw [show (32 : Nat) = 31 + 1 from rfl,
    toStringF_in_range 31 (ofBits 2147483648 0) 36 (by norm_num) (by norm_num),
    show (ofBits 2147483648 0).isZero = false by decide,
    show (ofBits 2147483648 0).isNegative = false by decide]
  simp only [Bool.false_eq_true, if_false]
  have hP6 := fromNumber_pow6_toNumber 36 (by norm_num) (by norm_num)
  obtain ⟨q, hq, hqv⟩ := divF_pos 14 (ofBits 2147483648 0)
    (fromNumber (.finite (((36 : Int) : ℚ) ^ (6 : Nat)))) (by rw [hx]; norm_num)
    (by rw [hP6]; norm_num)
  rw [toStringLoopF_succ, show divF 16 (ofBits 2147483648 0)
    (fromNumber (.finite (((36 : Int) : ℚ) ^ (6 : Nat)))) = some (.ok q) from hq]
  simp only
  have hq0 : q.toNumber = 0 := by
    rw [hqv, hP6, hx]
    decide
  rw [isZero_toNumber.mpr hq0]
  simp only [if_true]
  have hsub : ((ofBits 2147483648 0).subtract (q.multiply
      (fromNumber (.finite (((36 : Int) : ℚ) ^ (6 : Nat)))))).toNumber
      = 2147483648 := by
    rw [subtract_toNumber, multiply_toNumber, hq0, hP6, hx]
    rw [show (0 : ℤ) * (36 : ℤ) ^ (6 : Nat) = 0 by ring,
      show wrap64 0 = 0 from rfl,
      show (2147483648 : ℤ) - 0 = 2147483648 by ring]
    decide
  rw [toInt_mid (by rw [hsub]) (by rw [hsub]; norm_num), hsub]
  rw [show (2147483648 : ℤ) - 4294967296 = -2147483648 by norm_num]
  rw [show jsIntToString (-2147483648) (36 : Int).toNat
      = ['-', 'z', 'i', 'k', '0', 'z', 'k'] from by decide]
  rfl

end Timestamp

namespace Timestamp

theorem radix36_fromString_val :
    fromString ['-', 'z', 'i', 'k', '0', 'z', 'k'] (some 36)
      = .ok (ofBits (-2147483648) (-1)) := by
  rw [fromString_minus 36 (by norm_num) (by norm_num)]
  have hD : (['z', 'i', 'k', '0', 'z', 'k'] : List Char)
      = ([35, 18, 20, 0, 35, 20] : List Nat).map digitChar := by decide
  obtain ⟨t, ht, htv⟩ := fromString_digits 36 (by norm_num) (by norm_num)
    [35, 18, 20, 0, 35, 20] (by simp) (by decide)
  rw [hD, ht]
  have ht2 : t = ofBits 2147483648 0 := toN_inj (by rw [htv]; decide)
  rw [ht2]
  show Except.ok ((ofBits 2147483648 0).negate) = _
  exact congrArg Except.ok (toN_inj (by decide))

end Timestamp

theorem effRadix_none : effRadix none = 10 := rfl

theorem effRadix_some (R : Int) : effRadix (some R) = if R = 0 then 10 else R := rfl

theorem effRadix_ne_zero (o : Option Int) : effRadix o ≠ 0 := by
  cases o with
  | none => norm_num [effRadix_none]
  | some R =>
    rw [effRadix_some]
    split <;> omega

theorem effRadix_idem (o : Option Int) : effRadix (some (effRadix o)) = effRadix o := by
  rw [effRadix_some, if_neg (effRadix_ne_zero o)]

theorem stripMinus_minus (cs : List Char) : stripMinus ('-' :: cs) = stripMinus cs := rfl

theorem stripMinus_other (c : Char) (cs : List Char) (hc : c ≠ '-') :
    stripMinus (c :: cs) = c :: cs := by
  unfold stripMinus
  split
  · next heq =>
    injection heq with h1 _
    exact absurd h1 hc
  · rfl

namespace Timestamp

theorem fromString_nil (o : Option Int) : fromString [] o = .error .formatEmptyString := rfl

theorem fromString_bad_radix (o : Option Int) (c : Char) (cs : List Char)
    (h : effRadix o < 2 ∨ 36 < effRadix o) :
    fromString (c :: cs) o = .error .radixOutOfRange := by
  cases o with
  | none =>
    rw [effRadix_none] at h
    rcases h with h | h <;> omega
  | some R =>
    rw [effRadix_some] at h
    rw [fromString.eq_def]
    simp only
    have hg : (decide ((if R = 0 then (10 : Int) else R) < 2)
        || decide (36 < if R = 0 then (10 : Int) else R)) = true := by
      simp only [Bool.or_eq_true, decide_eq_true_eq]
      split at h <;> [skip; skip] <;> omega
    rw [hg]
    simp only [if_true]

theorem fromString_minus_eq (o : Option Int) (cs : List Char)
    (h2 : 2 ≤ effRadix o) (h36 : effRadix o ≤ 36) :
    fromString ('-' :: cs) o = (fromString cs (some (effRadix o))).map negate := by
  cases o with
  | none =>
    rw [effRadix_none]
    rw [fromString.eq_def]
    simp only
    norm_num
  | some R =>
    rw [effRadix_some] at h2 h36 ⊢
    rw [fromString.eq_def]
    simp only
    have hg : (decide ((if R = 0 then (10 : Int) else R) < 2)
        || decide (36 < if R = 0 then (10 : Int) else R)) = false := by
      simp only [Bool.or_eq_false_iff, decide_eq_false_iff_not]
      omega
    rw [hg]
    simp only [Bool.false_eq_true, if_false]

theorem fromString_other_eq (o : Option Int) (c : Char) (cs : List Char)
    (hc : c ≠ '-') (h2 : 2 ≤ effRadix o) (h36 : effRadix o ≤ 36) :
    fromString (c :: cs) o
    = if (c :: cs).contains '-' then .error .interiorMinusSign
      else .ok (fromStringLoop (effRadix o)
        (fromNumber (.finite ((effRadix o : ℚ) ^ (8 : Nat)))) ZERO (c :: cs)) := by
  cases o with
  | none =>
    rw [effRadix_none]
    rw [fromString.eq_def]
    simp only
    norm_num
    split
    · next heq =>
      injection heq with h1 _
      exact absurd h1 hc
    · rfl
  | some R =>
    rw [effRadix_some] at h2 h36 ⊢
    rw [fromString.eq_def]
    simp only
    have hg : (decide ((if R = 0 then (10 : Int) else R) < 2)
        || decide (36 < if R = 0 then (10 : Int) else R)) = false := by
      simp only [Bool.or_eq_false_iff, decide_eq_false_iff_not]
      omega
    rw [hg]
    simp only [Bool.false_eq_true, if_false]
    split
    · next heq =>
      injection heq with h1 _
      exact absurd h1 hc
    · rfl

theorem except_map_error_iff {f : Timestamp → Timestamp}
    {x : Except JsError Timestamp} :
    (∃ e, x.map f = .error e) ↔ ∃ e, x = .error e := by
  cases x with
  | ok a => simp [Except.map]
  | error e => simp [Except.map]

theorem fromString_error_characterization :
    ∀ (s : List Char) (optRadix : Option Int),
      (∃ e, fromString s optRadix = .error e)
      ↔ specFromStringFails s optRadix = true := by
  intro s
  induction s with
  | nil =>
    intro o
    constructor
    · intro _
      unfold specFromStringFails
      simp [stripMinus]
    · intro _
      exact ⟨.formatEmptyString, fromString_nil o⟩
  | cons c cs ih =>
    intro o
    by_cases hr : effRadix o < 2 ∨ 36 < effRadix o
    · constructor
      · intro _
        unfold specFromStringFails
        simp only [Bool.or_eq_true, decide_eq_true_eq]
        tauto
      · intro _
        exact ⟨.radixOutOfRange, fromString_bad_radix o c cs hr⟩
    · push_neg at hr
      obtain ⟨h2, h36⟩ := hr
      by_cases hc : c = '-'
      · subst hc
        rw [fromString_minus_eq o cs h2 h36]
        rw [except_map_error_iff]
        rw [ih (some (effRadix o))]
        unfold specFromStringFails
        rw [effRadix_idem, stripMinus_minus]
      · rw [fromString_other_eq o c cs hc h2 h36]
        unfold specFromStringFails
        rw [stripMinus_other c cs hc]
        constructor
        · intro ⟨e, he⟩
          split at he
          · next hcon =>
            simp only [Bool.or_eq_true, decide_eq_true_eq]
            exact Or.inr hcon
          · exact absurd he (by simp)
        · intro hb
          simp only [Bool.or_eq_true, decide_eq_true_eq, List.isEmpty_cons,
            Bool.false_eq_true, or_false, false_or] at hb
          rcases hb with hb | hb
          · omega
          · rw [if_pos hb]
            exact ⟨.interiorMinusSign, rfl⟩

end Timestamp

theorem ratTrunc_neg {q : ℚ} (h : q < 0) : ratTrunc q = -⌊-q⌋ := by
  unfold ratTrunc
  rw [if_pos h]

theorem floor_div_two32 (q : ℚ) : ⌊q / 4294967296⌋ = ⌊q⌋ / 4294967296 := by
  have hfl := Int.floor_le q
  have hfu := Int.lt_floor_add_one q
  have hdm := Int.ediv_add_emod ⌊q⌋ 4294967296
  have hm0 : (0 : ℤ) ≤ ⌊q⌋ % 4294967296 := Int.emod_nonneg _ (by norm_num)
  have hmlt : ⌊q⌋ % 4294967296 < 4294967296 := Int.emod_lt_of_pos _ (by norm_num)
  rw [Int.floor_eq_iff]
  constructor
  · rw [le_div_iff (by norm_num : (0 : ℚ) < 4294967296)]
    have h1 : ((⌊q⌋ / 4294967296 * 4294967296 : ℤ) : ℚ) ≤ ((⌊q⌋ : ℤ) : ℚ) := by
      exact_mod_cast (by omega : ⌊q⌋ / 4294967296 * 4294967296 ≤ ⌊q⌋)
    push_cast at h1
    linarith
  · rw [div_lt_iff (by norm_num : (0 : ℚ) < 4294967296)]
    have h2 : (((⌊q⌋ + 1 : ℤ)) : ℚ) ≤ (((⌊q⌋ / 4294967296 + 1) * 4294967296 : ℤ) : ℚ) := by
      exact_mod_cast (by omega : ⌊q⌋ + 1 ≤ (⌊q⌋ / 4294967296 + 1) * 4294967296)
    push_cast at h2
    linarith

namespace Timestamp

theorem fromNumberPos_trunc (q : ℚ) (h0 : 0 ≤ q) (hub : q < 9223372036854775808) :
    fromNumberPos q = fromNumberPos ((⌊q⌋ : ℤ) : ℚ) := by
  have hfl := Int.floor_le q
  have hfu := Int.lt_floor_add_one q
  have hf0 : (0 : ℤ) ≤ ⌊q⌋ := Int.floor_nonneg.mpr h0
  by_cases hcl : 9223372036854775808 ≤ q + 1
  · unfold fromNumberPos
    rw [if_pos hcl, if_pos ?_]
    have hq1 : (9223372036854775807 : ℚ) ≤ q := by linarith
    have hz : (9223372036854775807 : ℤ) ≤ ⌊q⌋ := by
      rw [Int.le_floor]
      exact_mod_cast hq1
    have : ((9223372036854775807 : ℤ) : ℚ) ≤ ((⌊q⌋ : ℤ) : ℚ) := by exact_mod_cast hz
    push_cast at this ⊢
    linarith
  · unfold fromNumberPos
    push_neg at hcl
    have hz : ⌊q⌋ + 1 < 9223372036854775808 := by
      have h1 : (⌊q⌋ : ℚ) < 9223372036854775807 := by linarith
      have h2 : ⌊q⌋ < 9223372036854775807 := by exact_mod_cast h1
      omega
    rw [if_neg (by linarith), if_neg ?_]
    swap
    · intro hc
      have h3 : (9223372036854775808 : ℤ) ≤ ⌊q⌋ + 1 := by exact_mod_cast hc
      omega
    -- both take the word-splitting path
    have hdiv : ratTrunc (q / 4294967296) = ⌊q⌋ / 4294967296 := by
      rw [ratTrunc_of_nonneg (by positivity), floor_div_two32]
    have hdiv' : ratTrunc (((⌊q⌋ : ℤ) : ℚ) / 4294967296) = ⌊q⌋ / 4294967296 := by
      rw [ratTrunc_of_nonneg (by positivity), floor_intCast_div_two32]
    have hmul : (4294967296 : ℤ) * (⌊q⌋ / 4294967296) ≤ ⌊q⌋ := by
      have := Int.ediv_add_emod ⌊q⌋ 4294967296
      have := Int.emod_nonneg ⌊q⌋ (by norm_num : (4294967296 : ℤ) ≠ 0)
      omega
    have hfmod : jsFmod q 4294967296
        = q - ((4294967296 * (⌊q⌋ / 4294967296) : ℤ) : ℚ) := by
      unfold jsFmod
      rw [hdiv]
      push_cast
      ring
    have hfmod' : jsFmod ((⌊q⌋ : ℤ) : ℚ) 4294967296
        = ((⌊q⌋ % 4294967296 : ℤ) : ℚ) := jsFmod_intCast_two32 ⌊q⌋ hf0
    have hploweq : jsPat32 (jsFmod q 4294967296)
        = jsPat32 (jsFmod ((⌊q⌋ : ℤ) : ℚ) 4294967296) := by
      rw [hfmod, hfmod']
      unfold jsPat32
      rw [ratTrunc_intCast]
      have htr : ratTrunc (q - ((4294967296 * (⌊q⌋ / 4294967296) : ℤ) : ℚ))
          = ⌊q⌋ - 4294967296 * (⌊q⌋ / 4294967296) := by
        rw [ratTrunc_of_nonneg (by
          have : ((4294967296 * (⌊q⌋ / 4294967296) : ℤ) : ℚ) ≤ ((⌊q⌋ : ℤ) : ℚ) := by
            exact_mod_cast hmul
          push_cast at this
          push_cast
          linarith)]
        rw [Int.floor_sub_int]
      rw [htr]
      congr 1
      omega
    have hphigheq : jsPat32 (q / 4294967296)
        = jsPat32 (((⌊q⌋ : ℤ) : ℚ) / 4294967296) := by
      unfold jsPat32
      rw [hdiv, hdiv']
    rw [hploweq, hphigheq]

theorem fromNumber_trunc (q : ℚ) :
    fromNumber (.finite q) = fromNumber (.finite ((ratTrunc q : ℤ) : ℚ)) := by
  by_cases hA : q ≤ -9223372036854775808
  · have hqneg : q < 0 := by linarith
    rw [ratTrunc_neg hqneg]
    have hfl : (9223372036854775808 : ℤ) ≤ ⌊-q⌋ := by
      rw [Int.le_floor]
      push_cast
      linarith
    have hcond : ((-⌊-q⌋ : ℤ) : ℚ) ≤ -9223372036854775808 := by
      have hc2 : ((9223372036854775808 : ℤ) : ℚ) ≤ ((⌊-q⌋ : ℤ) : ℚ) := by
        exact_mod_cast hfl
      push_cast at hc2 ⊢
      linarith
    simp only [fromNumber]
    rw [if_pos hA, if_pos hcond]
  · push_neg at hA
    by_cases hB : 9223372036854775808 ≤ q + 1
    · have hq0 : (0 : ℚ) ≤ q := by linarith
      rw [ratTrunc_of_nonneg hq0]
      have hz : (9223372036854775807 : ℤ) ≤ ⌊q⌋ := by
        rw [Int.le_floor]
        push_cast
        linarith
      have hzq : ((9223372036854775807 : ℤ) : ℚ) ≤ ((⌊q⌋ : ℤ) : ℚ) := by
        exact_mod_cast hz
      push_cast at hzq
      have hcond1 : ¬(((⌊q⌋ : ℤ) : ℚ) ≤ -9223372036854775808) := by
        push_cast
        linarith
      have hcond2 : (9223372036854775808 : ℚ) ≤ ((⌊q⌋ : ℤ) : ℚ) + 1 := by
        push_cast
        linarith
      simp only [fromNumber]
      rw [if_neg (by linarith), if_pos hB, if_neg hcond1, if_pos hcond2]
    · push_neg at hB
      -- in-range: compare the values
      by_cases hC : q < 0
      · have hnq0 : (0 : ℚ) ≤ -q := by linarith
        have hnqub : -q < 9223372036854775808 := by linarith
        have hf0 : (0 : ℤ) ≤ ⌊-q⌋ := Int.floor_nonneg.mpr hnq0
        have hfub : ⌊-q⌋ < 9223372036854775808 := by
          have h1 : (⌊-q⌋ : ℚ) ≤ -q := Int.floor_le _
          have h2 : (⌊-q⌋ : ℚ) < 9223372036854775808 := by linarith
          exact_mod_cast h2
        rw [ratTrunc_neg hC]
        apply toNumber_inj
        rw [fromNumber_int (-⌊-q⌋) (by omega) (by omega)]
        simp only [fromNumber]
        rw [if_neg (not_le.mpr hA), if_neg (not_le.mpr hB), if_pos hC]
        rw [negate_toNumber, fromNumberPos_trunc (-q) hnq0 hnqub,
          fromNumberPos_int ⌊-q⌋ hf0 hfub]
        exact wrap64_eq_self (by omega) (by omega)
      · push_neg at hC
        have hqub : q < 9223372036854775808 := by linarith
        have hf0 : (0 : ℤ) ≤ ⌊q⌋ := Int.floor_nonneg.mpr hC
        have hfub : ⌊q⌋ < 9223372036854775808 := by
          have h1 : (⌊q⌋ : ℚ) ≤ q := Int.floor_le _
          have h2 : (⌊q⌋ : ℚ) < 9223372036854775808 := by linarith
          exact_mod_cast h2
        rw [ratTrunc_of_nonneg hC]
        apply toNumber_inj
        rw [fromNumber_int ⌊q⌋ (by omega) (by omega)]
        simp only [fromNumber]
        rw [if_neg (not_le.mpr hA), if_neg (not_le.mpr hB),
          if_neg (not_lt.mpr hC)]
        rw [fromNumberPos_trunc q hC hqub, fromNumberPos_int ⌊q⌋ hf0 hfub]

end Timestamp

namespace Timestamp

theorem floor_29_10 : ⌊(29 / 10 : ℚ)⌋ = 2 := by
  rw [Int.floor_eq_iff]
  constructor <;> norm_num

theorem ratTrunc_29_10 : ratTrunc (29 / 10 : ℚ) = 2 := by
  rw [ratTrunc_of_nonneg (by norm_num), floor_29_10]

theorem ratTrunc_neg_29_10 : ratTrunc (-(29 / 10) : ℚ) = -2 := by
  rw [ratTrunc_neg (by norm_num), neg_neg, floor_29_10]

theorem fromNumber_trunc_example_pos :
    fromNumber (.finite (29 / 10 : ℚ)) = fromInt 2 := by
  rw [fromNumber_trunc, ratTrunc_29_10]
  apply toNumber_inj
  rw [fromNumber_int 2 (by norm_num) (by norm_num)]
  decide

theorem fromNumber_trunc_example_neg :
    fromNumber (.finite (-(29 / 10) : ℚ)) = fromInt (-2) := by
  rw [fromNumber_trunc, ratTrunc_neg_29_10]
  apply toNumber_inj
  rw [show (((-2 : ℤ)) : ℚ) = ((-2 : ℤ) : ℚ) from rfl,
    fromNumber_int (-2) (by norm_num) (by norm_num)]
  decide

end Timestamp

namespace Timestamp

/-- C1: for every value `x` and nonzero divisor `y` outside the MIN_VALUE
special cases, the division identity `x.div(y).multiply(y).add(x.modulo(y))
.equals(x)` holds (the fuel 16 is the bound the termination proof
establishes). -/
theorem claim_C1 (x y : Timestamp) (hy : y.isZero = false)
    (hx : x.equals MIN_VALUE = false) (hym : y.equals MIN_VALUE = false) :
    ∃ q m : Timestamp, divF 16 x y = some (.ok q) ∧
      moduloF 16 x y = some (.ok m) ∧
      ((q.multiply y).add m).equals x = true := by
  obtain ⟨q, hq, hqv⟩ := divF_spec 12 x y hy
  refine ⟨q, x.subtract (q.multiply y), hq, by unfold moduloF; rw [show divF 16 x y
    = some (.ok q) from hq], ?_⟩
  apply equals_iff.mpr
  apply toNumber_inj
  rw [add_toNumber, subtract_toNumber]
  rw [show (q.multiply y).toNumber
      + wrap64 (x.toNumber - (q.multiply y).toNumber)
      = wrap64 (x.toNumber - (q.multiply y).toNumber)
      + (q.multiply y).toNumber by ring,
    wrap64_add_wrap_left,
    show x.toNumber - (q.multiply y).toNumber + (q.multiply y).toNumber
      = x.toNumber by ring]
  exact wrap64_eq_self x.toNumber_lb x.toNumber_ub

theorem claim_C1_witness :
    ∃ q m : Timestamp, divF 16 (fromInt 7) (fromInt 3) = some (.ok q) ∧
      moduloF 16 (fromInt 7) (fromInt 3) = some (.ok m) ∧
      ((q.multiply (fromInt 3)).add m).equals (fromInt 7) = true :=
  claim_C1 (fromInt 7) (fromInt 3) (by decide) (by decide) (by decide)

/-- C2 (amended): for the radices 2, 10 and 16 the printed form of every
value parses back to an equal value; radix 36 is excluded because its
six-digit chunks can exceed 2^31 and print with a spurious sign (see the
counterexample). -/
theorem claim_C2 (r : Int) (hr : r = 2 ∨ r = 10 ∨ r = 16) (x : Timestamp) :
    ∃ (s : List Char) (y : Timestamp),
      toStringF 32 x (some r) = some (.ok s) ∧
      fromString s (some r) = .ok y ∧ y.equals x = true := by
  rcases hr with rfl | rfl | rfl <;>
    exact stringRoundTrip _ (by norm_num) (by norm_num) x

theorem claim_C2_witness :
    ∃ (s : List Char) (y : Timestamp),
      toStringF 32 (fromInt 12345) (some 10) = some (.ok s) ∧
      fromString s (some 10) = .ok y ∧ y.equals (fromInt 12345) = true :=
  claim_C2 10 (Or.inr (Or.inl rfl)) (fromInt 12345)

/-- C2 counterexample: at radix 36 the value 2^31 prints as `-zik0zk`
(the remainder chunk 2^31 is at least 2^31, so its low word reads back
negative), and that string parses to -2^31, which is a different value. -/
theorem claim_C2_cx :
    toStringF 32 (ofBits 2147483648 0) (some 36)
      = some (.ok ['-', 'z', 'i', 'k', '0', 'z', 'k'])
    ∧ fromString ['-', 'z', 'i', 'k', '0', 'z', 'k'] (some 36)
      = .ok (ofBits (-2147483648) (-1))
    ∧ (ofBits (-2147483648) (-1)).equals (ofBits 2147483648 0) = false :=
  ⟨radix36_toString_bug, radix36_fromString_val, by decide⟩

/-- C3: `add` is 64-bit two's-complement wraparound addition: the sum's
signed value is `wrap64` of the operands' sum, and `MAX_VALUE.add(ONE)`
equals `MIN_VALUE`. -/
theorem claim_C3 :
    (∀ x y : Timestamp, (x.add y).toNumber = wrap64 (x.toNumber + y.toNumber))
    ∧ (MAX_VALUE.add ONE).equals MIN_VALUE = true :=
  ⟨add_toNumber, by decide⟩

/-- C4: `div` terminates for every pair of operands: with fuel 16 it always
returns an answer (the divisor-zero error or a quotient), never runs out. -/
theorem claim_C4 (x y : Timestamp) : ∃ r, divF 16 x y = some r := by
  rcases Bool.dichotomy y.isZero with hz | hz
  · obtain ⟨d, hd, _⟩ := divF_spec 12 x y hz
    exact ⟨.ok d, hd⟩
  · exact ⟨.error .divisionByZero, divF_zero 15 x y hz⟩

/-- C5: multiplying a nonzero value by MIN_VALUE (on either side) gives
MIN_VALUE when the other operand is odd and ZERO when it is even. -/
theorem claim_C5 (x : Timestamp) (hx : x.isZero = false) :
    MIN_VALUE.multiply x = (if x.isOdd then MIN_VALUE else ZERO)
    ∧ x.multiply MIN_VALUE = (if x.isOdd then MIN_VALUE else ZERO) := by
  constructor
  · unfold multiply
    rw [show MIN_VALUE.isZero = false by decide, hx,
      show MIN_VALUE.equals MIN_VALUE = true by decide]
    simp only [Bool.false_eq_true, if_false, if_true]
  · unfold multiply
    rw [hx, show MIN_VALUE.isZero = false by decide]
    simp only [Bool.false_eq_true, if_false]
    by_cases hxm : x.equals MIN_VALUE = true
    · rw [hxm]
      simp only [if_true]
      rw [equals_iff.mp hxm]
    · rw [Bool.eq_false_iff.mpr hxm,
        show MIN_VALUE.equals MIN_VALUE = true by decide]
      simp only [Bool.false_eq_true, if_false, if_true]

theorem claim_C5_witness :
    MIN_VALUE.multiply (fromInt 3)
      = (if (fromInt 3).isOdd then MIN_VALUE else ZERO)
    ∧ (fromInt 3).multiply MIN_VALUE
      = (if (fromInt 3).isOdd then MIN_VALUE else ZERO) :=
  claim_C5 (fromInt 3) (by decide)

/-- C6: `div` and `modulo` fail exactly on a zero divisor: for a zero
divisor both return the division-by-zero error, and for every other divisor
(including all MIN_VALUE cases) both return a value. -/
theorem claim_C6 (x y : Timestamp) :
    ((∃ q, divF 16 x y = some (.ok q)) ↔ y.isZero = false)
    ∧ ((∃ m, moduloF 16 x y = some (.ok m)) ↔ y.isZero = false)
    ∧ (y.isZero = true →
        divF 16 x y = some (.error .divisionByZero)
        ∧ moduloF 16 x y = some (.error .divisionByZero)) := by
  rcases Bool.dichotomy y.isZero with hz | hz
  · obtain ⟨d, m, hd, hm⟩ := moduloF_spec 12 x y hz
    exact ⟨⟨fun _ => hz, fun _ => ⟨d, hd⟩⟩,
      ⟨fun _ => hz, fun _ => ⟨_, hm⟩⟩,
      fun hf => absurd hz (by rw [hf]; simp)⟩
  · refine ⟨⟨fun ⟨q, hq⟩ => ?_, fun hf => absurd hz (by rw [hf]; simp)⟩,
      ⟨fun ⟨m, hm⟩ => ?_, fun hf => absurd hz (by rw [hf]; simp)⟩,
      fun _ => ⟨divF_zero 15 x y hz, moduloF_zero 15 x y hz⟩⟩
    · rw [divF_zero 15 x y hz] at hq
      simp at hq
    · rw [moduloF_zero 15 x y hz] at hm
      simp at hm

/-- C7 (amended): `fromString` fails exactly when the effective radix
(`opt_radix || 10`) lies outside [2, 36], or the input with every leading
`-` stripped is empty, or that remainder still contains a `-`.  In
particular `"-"` alone fails (the recursion reaches the empty string) and a
doubled sign such as `"--5"` succeeds. -/
theorem claim_C7 (s : List Char) (optRadix : Option Int) :
    (∃ e, fromString s optRadix = .error e)
    ↔ specFromStringFails s optRadix = true :=
  fromString_error_characterization s optRadix

/-- C7 counterexample: the input `"-"` is nonempty, its `-` is leading and
the radix 10 is in range, yet `fromString` fails (with the empty-string
error), contradicting the claimed error condition. -/
theorem claim_C7_cx :
    fromString ['-'] (some 10) = .error .formatEmptyString
    ∧ (['-'] : List Char) ≠ []
    ∧ (2 ≤ (10 : Int) ∧ (10 : Int) ≤ 36) :=
  ⟨rfl, by simp, by norm_num⟩

/-- C8: `fromNumber` never raises: NaN and both infinities give ZERO, a
finite value at most -2^63 gives MIN_VALUE, and a finite value with
`value + 1 ≥ 2^63` gives MAX_VALUE. -/
theorem claim_C8 :
    fromNumber .nan = ZERO
    ∧ (∀ b, fromNumber (.inf b) = ZERO)
    ∧ (∀ q : ℚ, q ≤ -9223372036854775808 → fromNumber (.finite q) = MIN_VALUE)
    ∧ (∀ q : ℚ, 9223372036854775808 ≤ q + 1 →
        fromNumber (.finite q) = MAX_VALUE) := by
  refine ⟨rfl, fun b => rfl, fun q h => ?_, fun q h => ?_⟩
  · simp only [fromNumber]
    rw [if_pos h]
  · simp only [fromNumber]
    rw [if_neg (by linarith), if_pos h]

/-- C9: `fromNumber` truncates a finite value toward zero: it agrees with
`fromNumber` of the truncation, and in particular 2.9 gives the value 2 and
-2.9 gives the value -2. -/
theorem claim_C9 :
    (∀ q : ℚ, fromNumber (.finite q)
      = fromNumber (.finite ((ratTrunc q : ℤ) : ℚ)))
    ∧ fromNumber (.finite (29 / 10 : ℚ)) = fromInt 2
    ∧ fromNumber (.finite (-(29 / 10) : ℚ)) = fromInt (-2) :=
  ⟨fromNumber_trunc, fromNumber_trunc_example_pos, fromNumber_trunc_example_neg⟩

/-- C10: `getNumBitsAbs` of the zero value is 1, although zero has no set
bits (its unsigned 64-bit pattern is 0). -/
theorem claim_C10 : ZERO.getNumBitsAbs = 1 ∧ ZERO.toN = 0 :=
  ⟨by decide, by decide⟩

end Timestamp
